import Mathlib

/-!
Verification of the OpenWebUI model-export pipeline (`gui/program.py` and the
standalone extraction scripts) against its natural-language specification.

The development shallowly embeds the Python code:
* JSON-decoded values become the inductive type `JVal` (Python `dict`s are
  association lists with distinct keys, `list`s are Lean lists, numbers are
  modelled as integers, which is all the claims need).
* Each Python function relevant to a claim is translated into a Lean
  definition of the same name (or an obvious transliteration) right next to a
  comment citing the source lines.
-/

/-- A JSON-decoded Python value (`json.load` result): `None`, `bool`, number,
`str`, `list`, or `dict`.  A `dict` is modelled as an association list in
insertion order; Python guarantees the keys are distinct. -/
inductive JVal where
  | null : JVal
  | bool (b : Bool) : JVal
  | num (n : Int) : JVal
  | str (s : String) : JVal
  | arr (items : List JVal) : JVal
  | obj (fields : List (String × JVal)) : JVal

/-- A projected item (`extracted_item` in `perform_export`): a flat Python
dict from field-path strings to resolved values, kept in insertion order. -/
abbrev Item := List (String × JVal)

/-! ## PathExtractor (`gui/program.py` lines 341-356)

```python
field_parts = field.split('.')
value = item
try:
    for part in field_parts:
        value = value.get(part, "")
except (AttributeError, TypeError):
    value = ""
```

`dict.get(part, "")` yields `""` for an absent key and the loop continues;
calling `.get` on any non-dict raises `AttributeError`/`TypeError`, which the
`except` turns into `""` and the walk is over.  `resolveField` reproduces
exactly this: continuing the walk from `""` with segments left over lands in
the non-dict case and also ends in `""`. -/

/-- The walk of `perform_export`'s field-extraction loop over one dotted
path, segment list already split on `'.'`. -/
def resolveField : JVal → List String → JVal
  | v, [] => v
  | JVal.obj fs, p :: rest => resolveField ((fs.lookup p).getD (JVal.str "")) rest
  | _, _ :: _ => JVal.str ""

/-- `field.split('.')`: split on every `'.'`; the empty string yields
`[""]`, like Python.  (Defined directly over the character list so that it is
evaluable by the kernel.) -/
def splitDotsAux (cur : List Char) : List Char → List String
  | [] => [String.mk cur.reverse]
  | c :: rest =>
    if c = '.' then String.mk cur.reverse :: splitDotsAux [] rest
    else splitDotsAux (c :: cur) rest

def splitDots (s : String) : List String := splitDotsAux [] s.data

/-- `extracted_item[field] = value` for one selected field:
split the field on dots and walk. -/
def extractField (item : JVal) (field : String) : JVal :=
  resolveField item (splitDots field)

/-- Spec-side resolution (spec section 4.1): `some` of the reached value when
every segment resolves through a mapping, `none` as soon as a segment is
absent or the current value is not a mapping. -/
def resolveSpec : JVal → List String → Option JVal
  | v, [] => some v
  | JVal.obj fs, p :: rest =>
    match fs.lookup p with
    | some v => resolveSpec v rest
    | none => none
  | _, _ :: _ => none

theorem resolveField_str_empty (rest : List String) :
    resolveField (JVal.str "") rest = JVal.str "" := by
  cases rest <;> rfl

theorem resolveField_eq_resolveSpec (v : JVal) (parts : List String) :
    resolveField v parts = (resolveSpec v parts).getD (JVal.str "") := by
  induction parts generalizing v with
  | nil => cases v <;> rfl
  | cons p rest ih =>
    cases v with
    | obj fs =>
      cases h : fs.lookup p with
      | some w => simp [resolveField, resolveSpec, h, ih]
      | none => simp [resolveField, resolveSpec, h, resolveField_str_empty]
    | null => rfl
    | bool b => rfl
    | num n => rfl
    | str s => rfl
    | arr xs => rfl

/-- C3.  Path resolution totality: the extraction step is a total function
(it is a Lean `def`, hence never raises); on every record and every dotted
field path it returns the fully resolved value unmodified (lists and mappings
included) when every segment resolves through a mapping, and the empty string
as soon as some segment is absent or the value reached is not a mapping —
that is, it agrees everywhere with `Option.getD` of the spec-side partial
resolution. -/
theorem extraction_total_and_faithful :
    ∀ (item : JVal) (field : String),
      extractField item field =
        (resolveSpec item (splitDots field)).getD (JVal.str "") :=
  fun item field => resolveField_eq_resolveSpec item (splitDots field)

/-! ## PersonalInfoFilter (`gui/program.py` lines 458-477; the identical
function appears verbatim in `scripts/simplify_json.py` lines 90-122)

```python
def contains_personal_info(self, obj, personal_terms):
    if isinstance(obj, dict):
        for key, value in obj.items():
            if isinstance(value, (dict, list)):
                if self.contains_personal_info(value, personal_terms): return True
            elif isinstance(value, str):
                for term in personal_terms:
                    if term in value: return True
    elif isinstance(obj, list):
        for item in obj:
            if self.contains_personal_info(item, personal_terms): return True
    elif isinstance(obj, str):
        for term in personal_terms:
            if term in obj: return True
    return False
```
-/

/-- `t == s[0:len t]`: the Python substring test starts here. -/
def startsWithL : List Char → List Char → Bool
  | [], _ => true
  | _ :: _, [] => false
  | a :: t, b :: s => a = b && startsWithL t s

/-- Python `t in s` on strings: `t` occurs contiguously in `s`. -/
def subL (t : List Char) : List Char → Bool
  | [] => t.isEmpty
  | s@(_ :: rest) => startsWithL t s || subL t rest

/-- `for term in personal_terms: if term in value: return True` -/
def anyTermIn (terms : List String) (s : String) : Bool :=
  terms.any (fun t => subL t.data s.data)

mutual

/-- `contains_personal_info` (the same code in `gui/program.py` and in
`scripts/simplify_json.py`).  Dict keys are never inspected; dict values and
list elements are; only string leaves can match. -/
def contains_personal_info (terms : List String) : JVal → Bool
  | JVal.obj fs => cpiFields terms fs
  | JVal.arr xs => cpiList terms xs
  | JVal.str s => anyTermIn terms s
  | _ => false

/-- The `for key, value in obj.items()` loop body of `contains_personal_info`. -/
def cpiFields (terms : List String) : List (String × JVal) → Bool
  | [] => false
  | (_, v) :: rest =>
    (match v with
     | JVal.obj _ => contains_personal_info terms v
     | JVal.arr _ => contains_personal_info terms v
     | JVal.str s => anyTermIn terms s
     | _ => false) || cpiFields terms rest

/-- The `for item in obj` loop of `contains_personal_info` on lists. -/
def cpiList (terms : List String) : List JVal → Bool
  | [] => false
  | v :: rest => contains_personal_info terms v || cpiList terms rest

end

/-- Spec side: `s` is a string leaf of the tree, reachable through mapping
values and sequence elements. -/
inductive IsStrLeaf : JVal → String → Prop where
  | self (s : String) : IsStrLeaf (JVal.str s) s
  | inObj {fs : List (String × JVal)} {k : String} {v : JVal} {s : String} :
      (k, v) ∈ fs → IsStrLeaf v s → IsStrLeaf (JVal.obj fs) s
  | inArr {xs : List JVal} {v : JVal} {s : String} :
      v ∈ xs → IsStrLeaf v s → IsStrLeaf (JVal.arr xs) s

theorem startsWithL_iff (t s : List Char) :
    startsWithL t s = true ↔ ∃ r, s = t ++ r := by
  induction t generalizing s with
  | nil => simp [startsWithL]
  | cons a t ih =>
    cases s with
    | nil =>
      simp only [startsWithL, Bool.false_eq_true, false_iff]
      rintro ⟨r, h⟩
      exact List.cons_ne_nil _ _ h.symm
    | cons b s =>
      simp only [startsWithL, Bool.and_eq_true, decide_eq_true_eq, ih,
        List.cons_append, List.cons.injEq]
      constructor
      · rintro ⟨rfl, r, rfl⟩; exact ⟨r, rfl, rfl⟩
      · rintro ⟨r, rfl, rfl⟩; exact ⟨rfl, r, rfl⟩

theorem subL_iff (t s : List Char) :
    subL t s = true ↔ ∃ l r, s = l ++ t ++ r := by
  induction s with
  | nil =>
    simp only [subL, List.isEmpty_iff]
    constructor
    · rintro rfl; exact ⟨[], [], rfl⟩
    · rintro ⟨l, r, h⟩
      rcases List.append_eq_nil.mp h.symm with ⟨h1, h2⟩
      exact (List.append_eq_nil.mp h1).2
  | cons b s ih =>
    simp only [subL, Bool.or_eq_true, startsWithL_iff, ih]
    constructor
    · rintro (⟨r, h⟩ | ⟨l, r, rfl⟩)
      · exact ⟨[], r, by simpa using h⟩
      · exact ⟨b :: l, r, rfl⟩
    · rintro ⟨l, r, h⟩
      cases l with
      | nil => exact Or.inl ⟨r, by simpa using h⟩
      | cons c l =>
        simp only [List.cons_append, List.cons.injEq] at h
        exact Or.inr ⟨l, r, h.2⟩

/-- The match inside the dict loop is extensionally `contains_personal_info`
on the value. -/
theorem cpiFields_entry (terms : List String) (v : JVal) :
    (match v with
     | JVal.obj _ => contains_personal_info terms v
     | JVal.arr _ => contains_personal_info terms v
     | JVal.str s => anyTermIn terms s
     | _ => false) = contains_personal_info terms v := by
  cases v <;> rfl

theorem cpiFields_eq_any (terms : List String) (fs : List (String × JVal)) :
    cpiFields terms fs = fs.any (fun kv => contains_personal_info terms kv.2) := by
  induction fs with
  | nil => rfl
  | cons kv rest ih =>
    obtain ⟨k, v⟩ := kv
    rw [List.any_cons, ← ih]
    exact congrArg (· || cpiFields terms rest) (cpiFields_entry terms v)

theorem cpiList_eq_any (terms : List String) (xs : List JVal) :
    cpiList terms xs = xs.any (fun v => contains_personal_info terms v) := by
  induction xs with
  | nil => rfl
  | cons v rest ih => rw [List.any_cons, ← ih]; rfl

theorem sizeOf_snd_lt_of_mem {fs : List (String × JVal)} {k : String} {v : JVal}
    (h : (k, v) ∈ fs) : sizeOf v < sizeOf (JVal.obj fs) := by
  have h1 : sizeOf (k, v) < sizeOf fs := List.sizeOf_lt_of_mem h
  simp only [Prod.mk.sizeOf_spec] at h1
  simp only [JVal.obj.sizeOf_spec]
  omega

theorem sizeOf_mem_lt_of_mem {xs : List JVal} {v : JVal}
    (h : v ∈ xs) : sizeOf v < sizeOf (JVal.arr xs) := by
  have h1 : sizeOf v < sizeOf xs := List.sizeOf_lt_of_mem h
  simp only [JVal.arr.sizeOf_spec]
  omega

theorem cpi_iff_aux (terms : List String) :
    ∀ (n : Nat) (v : JVal), sizeOf v ≤ n →
      (contains_personal_info terms v = true ↔
        ∃ s, IsStrLeaf v s ∧ ∃ t ∈ terms, ∃ l r, s.data = l ++ t.data ++ r) := by
  intro n
  induction n with
  | zero =>
    intro v hv
    exfalso
    cases v <;> simp_all
  | succ n ih =>
    intro v hv
    cases v with
    | null =>
      simp only [contains_personal_info, Bool.false_eq_true, false_iff]
      rintro ⟨s, hleaf, -⟩; cases hleaf
    | bool b =>
      simp only [contains_personal_info, Bool.false_eq_true, false_iff]
      rintro ⟨s, hleaf, -⟩; cases hleaf
    | num m =>
      simp only [contains_personal_info, Bool.false_eq_true, false_iff]
      rintro ⟨s, hleaf, -⟩; cases hleaf
    | str s =>
      simp only [contains_personal_info, anyTermIn, List.any_eq_true, subL_iff]
      constructor
      · rintro ⟨t, ht, l, r, h⟩
        exact ⟨s, IsStrLeaf.self s, t, ht, l, r, h⟩
      · rintro ⟨s', hleaf, t, ht, l, r, h⟩
        cases hleaf
        exact ⟨t, ht, l, r, h⟩
    | arr xs =>
      rw [show contains_personal_info terms (JVal.arr xs) = cpiList terms xs from rfl,
        cpiList_eq_any]
      simp only [List.any_eq_true]
      constructor
      · rintro ⟨v, hvmem, hv⟩
        have hsz : sizeOf v ≤ n := by
          have := sizeOf_mem_lt_of_mem hvmem
          omega
        obtain ⟨s, hleaf, hrest⟩ := (ih v hsz).mp hv
        exact ⟨s, IsStrLeaf.inArr hvmem hleaf, hrest⟩
      · rintro ⟨s, hleaf, hrest⟩
        cases hleaf with
        | inArr hvmem hsub =>
          rename_i v
          have hsz : sizeOf v ≤ n := by
            have := sizeOf_mem_lt_of_mem hvmem
            omega
          exact ⟨v, hvmem, (ih v hsz).mpr ⟨s, hsub, hrest⟩⟩
    | obj fs =>
      rw [show contains_personal_info terms (JVal.obj fs) = cpiFields terms fs from rfl,
        cpiFields_eq_any]
      simp only [List.any_eq_true]
      constructor
      · rintro ⟨kv, hkvmem, hv⟩
        obtain ⟨k, v⟩ := kv
        have hsz : sizeOf v ≤ n := by
          have := sizeOf_snd_lt_of_mem hkvmem
          omega
        obtain ⟨s, hleaf, hrest⟩ := (ih v hsz).mp hv
        exact ⟨s, IsStrLeaf.inObj hkvmem hleaf, hrest⟩
      · rintro ⟨s, hleaf, hrest⟩
        cases hleaf with
        | inObj hkvmem hsub =>
          rename_i k v
          have hsz : sizeOf v ≤ n := by
            have := sizeOf_snd_lt_of_mem hkvmem
            omega
          exact ⟨(k, v), hkvmem, (ih v hsz).mpr ⟨s, hsub, hrest⟩⟩

/-- C4.  `contains_personal_info` returns true iff some string leaf of the
record (reached through mapping values and sequence elements) contains some
term as a case-sensitive substring; with an empty term list it is false on
every record, and non-string non-container leaves never cause a match (they
produce no string leaf). -/
theorem contains_personal_info_characterization :
    (∀ (terms : List String) (v : JVal),
        contains_personal_info terms v = true ↔
          ∃ s, IsStrLeaf v s ∧ ∃ t ∈ terms, ∃ l r, s.data = l ++ t.data ++ r) ∧
    (∀ v : JVal, contains_personal_info [] v = false) := by
  constructor
  · intro terms v
    exact cpi_iff_aux terms (sizeOf v) v le_rfl
  · intro v
    cases h : contains_personal_info [] v
    · rfl
    · exfalso
      obtain ⟨-, -, t, ht, -⟩ := (cpi_iff_aux [] (sizeOf v) v le_rfl).mp h
      exact absurd ht (List.not_mem_nil t)

/-! ## Pipeline: filtering and projection (`gui/program.py` lines 322-357)

```python
personal_terms = ["Daniel", "Rosehill", "daniel", "rosehill"]
filtered_data = []
for i, item in enumerate(data):
    if not self.contains_personal_info(item, personal_terms):
        filtered_data.append(item)
...
for i, item in enumerate(data):
    extracted_item = {}
    for field in selected_fields:
        ...  # resolveField, see above
        extracted_item[field] = value
    extracted_data.append(extracted_item)
```
-/

def personal_terms : List String := ["Daniel", "Rosehill", "daniel", "rosehill"]

/-- The `filtered_data` loop: keep, in order, the records without any
personal-term match. -/
def filterPersonalData (data : List JVal) : List JVal :=
  data.filter (fun item => !contains_personal_info personal_terms item)

/-- One `extracted_item`: the selected fields in iteration order, each mapped
to its resolved value (`selected_fields` are the distinct checked field paths,
so the dict key order is the iteration order). -/
def extract_item (selected : List String) (item : JVal) : Item :=
  selected.map (fun f => (f, extractField item f))

/-- The `extracted_data` loop: one projected item per record, in order. -/
def extractAll (selected : List String) (data : List JVal) : List Item :=
  data.map (extract_item selected)

/-! ## Python `str` of a decoded value (used by the XML and Markdown
renderers: `str(value) if value is not None else ""`).

Scalars are rendered exactly as Python does; for nested containers the
Python `repr`-based punctuation is reproduced (brackets, braces, `: ` and
`, ` separators) but inner strings are rendered without `repr` quotes — no
claim depends on the container rendering, only on the scalar cases. -/

/-- Decimal digits of a natural number, most significant first. -/
def renderNat (n : Nat) : List Char :=
  if n = 0 then ['0']
  else (Nat.digits 10 n).reverse.map (fun d => Char.ofNat (48 + d))

/-- Python `str` of an integer. -/
def renderInt (i : Int) : List Char :=
  if i < 0 then '-' :: renderNat i.natAbs else renderNat i.natAbs

mutual

def pyStr : JVal → String
  | JVal.null => "None"
  | JVal.bool true => "True"
  | JVal.bool false => "False"
  | JVal.num n => String.mk (renderInt n)
  | JVal.str s => s
  | JVal.arr xs => "[" ++ pyStrList xs ++ "]"
  | JVal.obj fs => "\x7b" ++ pyStrFields fs ++ "\x7d"

def pyStrList : List JVal → String
  | [] => ""
  | [x] => pyStr x
  | x :: y :: t => pyStr x ++ ", " ++ pyStrList (y :: t)

def pyStrFields : List (String × JVal) → String
  | [] => ""
  | [(k, v)] => k ++ ": " ++ pyStr v
  | (k, v) :: f :: fs => k ++ ": " ++ pyStr v ++ ", " ++ pyStrFields (f :: fs)

end

/-! ## FieldOrderPolicy, duplicated per renderer
(`gui/program.py` lines 484-518 for CSV, 534-559 for Excel, 636-661 for
Markdown — the three copies are byte-identical in the source):

```python
primary_fields = ["name", "info.meta.description", "info.params.system"]
all_keys = set()
for item in data:
    all_keys.update(item.keys())
fieldnames = []
for field in primary_fields:
    if field in all_keys:
        fieldnames.append(field)
        all_keys.remove(field)
fieldnames.extend(sorted(all_keys))
header_mapping = {"name": "name",
                  "info.meta.description": "description",
                  "info.params.system": "system_prompt"}
```

The union `all_keys` is a Python set, consumed only through membership tests
and `sorted(...)`, so it is modelled as the deduplicated list of keys; which
duplicate survives `dedup` is irrelevant to membership and to sorting. -/

def primary_fields : List String := ["name", "info.meta.description", "info.params.system"]

/-- `all_keys`, the union of key sets over all projected items. -/
def allKeysOf (data : List Item) : List String :=
  (data.flatMap (fun it => it.map Prod.fst)).dedup

/-- The `fieldnames` computation of `export_to_csv`. -/
def csvFieldnames (data : List Item) : List String :=
  let all_keys := allKeysOf data
  (primary_fields.filter (fun f => all_keys.contains f))
    ++ List.insertionSort (· ≤ ·) (all_keys.filter (fun k => !primary_fields.contains k))

/-- The identical `fieldnames` computation of `export_to_excel`. -/
def excelFieldnames (data : List Item) : List String :=
  let all_keys := allKeysOf data
  (primary_fields.filter (fun f => all_keys.contains f))
    ++ List.insertionSort (· ≤ ·) (all_keys.filter (fun k => !primary_fields.contains k))

/-- The identical `headers` computation of `export_to_markdown`. -/
def markdownHeaders (data : List Item) : List String :=
  let all_keys := allKeysOf data
  (primary_fields.filter (fun f => all_keys.contains f))
    ++ List.insertionSort (· ≤ ·) (all_keys.filter (fun k => !primary_fields.contains k))

def header_mapping : List (String × String) :=
  [("name", "name"),
   ("info.meta.description", "description"),
   ("info.params.system", "system_prompt")]

/-- `header_mapping.get(field, field)`. -/
def headerName (f : String) : String := (header_mapping.lookup f).getD f

/-- `item.get(field, "")` on a projected item. -/
def itemGet (it : Item) (k : String) : JVal := (it.lookup k).getD (JVal.str "")

/-! ## Renderers (CSV lines 479-527, Excel lines 529-573, Markdown 631-687).

Each renderer first raises `ValueError("No data to export")` on an empty
record list — before its output file is opened — which the embedding models
as `Except.error`; otherwise it produces a header row plus one data row per
item, which models what the renderer writes into the file. -/

structure TableOutput where
  header : List String
  rows : List (List JVal)

/-- `export_to_csv`: header of display names, then `item.get(field, "")`
per row cell (`csv.writer` serialization of the cells is outside the claims). -/
def export_to_csv (data : List Item) : Except String TableOutput :=
  if data.isEmpty then Except.error "No data to export"
  else
    let fieldnames := csvFieldnames data
    Except.ok ⟨fieldnames.map headerName,
      data.map (fun it => fieldnames.map (fun f => itemGet it f))⟩

/-- `pd.DataFrame(data).columns`: the union of keys (pandas keeps first-
appearance order; only membership in it is ever used downstream). -/
def dfColumns (data : List Item) : List String :=
  (data.flatMap (fun it => it.map Prod.fst)).dedup

/-- `ordered_columns = [col for col in fieldnames if col in df.columns]`. -/
def excelOrderedColumns (data : List Item) : List String :=
  (excelFieldnames data).filter (fun c => (dfColumns data).contains c)

structure ExcelOutput where
  header : List String
  rows : List (List (Option JVal))

/-- `export_to_excel`: DataFrame restricted to `ordered_columns`, renamed via
`header_mapping`, one worksheet of header + rows; a missing key is a NaN cell,
modelled `none`. -/
def export_to_excel (data : List Item) : Except String ExcelOutput :=
  if data.isEmpty then Except.error "No data to export"
  else
    let cols := excelOrderedColumns data
    Except.ok ⟨cols.map headerName,
      data.map (fun it => cols.map (fun c => it.lookup c))⟩

/-- The Markdown cell: `value.replace("|", "\\|").replace("\n", "<br>")` for
strings, then `str(value) if value is not None else ""`. -/
def mdCell (v : JVal) : String :=
  match v with
  | JVal.str s =>
    String.mk ((s.data.flatMap (fun c => if c = '|' then ['\\', '|'] else [c])).flatMap
      (fun c => if c = '\n' then ['<', 'b', 'r', '>'] else [c]))
  | JVal.null => ""
  | v => pyStr v

structure MarkdownOutput where
  header : List String
  rows : List (List String)

/-- `export_to_markdown`: same ordered headers with display names, a dash
separator row (implied by `header.length`), then one escaped row per item. -/
def export_to_markdown (data : List Item) : Except String MarkdownOutput :=
  if data.isEmpty then Except.error "No data to export"
  else
    let headers := markdownHeaders data
    Except.ok ⟨headers.map headerName,
      data.map (fun it => headers.map (fun h => mdCell (itemGet it h)))⟩

/-! ## Column-order theorems -/

theorem contains_iff_mem (l : List String) (k : String) :
    l.contains k = true ↔ k ∈ l := by
  simp

theorem mem_allKeysOf (data : List Item) (k : String) :
    k ∈ allKeysOf data ↔ ∃ it ∈ data, ∃ kv ∈ it, kv.1 = k := by
  simp [allKeysOf]

theorem sorted_lt_of_le_nodup {l : List String}
    (h1 : l.Sorted (· ≤ ·)) (h2 : l.Nodup) : l.Sorted (· < ·) :=
  (h1.and h2).imp (fun hab => lt_of_le_of_ne hab.1 hab.2)

theorem nodup_restSort (data : List Item) :
    (List.insertionSort (· ≤ ·)
      ((allKeysOf data).filter (fun k => !primary_fields.contains k))).Nodup :=
  (List.perm_insertionSort _ _).nodup_iff.mpr
    ((List.nodup_dedup _).filter _)

theorem mem_restSort (data : List Item) (k : String) :
    k ∈ List.insertionSort (· ≤ ·)
        ((allKeysOf data).filter (fun f => !primary_fields.contains f)) ↔
      (∃ it ∈ data, ∃ kv ∈ it, kv.1 = k) ∧ k ∉ primary_fields := by
  rw [(List.perm_insertionSort _ _).mem_iff, List.mem_filter, mem_allKeysOf]
  simp

/-- C1.  Column-order derivation: for non-empty projected data, the CSV
column list is exactly the primary fields present in the key union, in the
primary list's literal order, followed by the remaining union keys in strict
lexicographic order, and the emitted header renames registered field paths
and keeps unregistered keys verbatim. -/
theorem column_order_derivation (data : List Item) (h : data ≠ []) :
    ∃ rest : List String,
      csvFieldnames data
          = primary_fields.filter
              (fun f => decide (∃ it ∈ data, ∃ kv ∈ it, kv.1 = f)) ++ rest ∧
      List.Sorted (· < ·) rest ∧
      (∀ k, k ∈ rest ↔ (∃ it ∈ data, ∃ kv ∈ it, kv.1 = k) ∧ k ∉ primary_fields) ∧
      (∀ o, export_to_csv data = Except.ok o →
        o.header = (csvFieldnames data).map headerName) ∧
      headerName "name" = "name" ∧
      headerName "info.meta.description" = "description" ∧
      headerName "info.params.system" = "system_prompt" ∧
      (∀ k, k ≠ "name" → k ≠ "info.meta.description" → k ≠ "info.params.system" →
        headerName k = k) := by
  refine ⟨List.insertionSort (· ≤ ·)
      ((allKeysOf data).filter (fun k => !primary_fields.contains k)),
    ?_, ?_, mem_restSort data, ?_, rfl, rfl, rfl, ?_⟩
  · show List.filter (fun f => (allKeysOf data).contains f) primary_fields ++ _
        = List.filter _ primary_fields ++ _
    congr 1
    refine List.filter_congr (fun f _ => ?_)
    rcases hf : (allKeysOf data).contains f with hF | hT
    · have hno : ¬ ∃ it ∈ data, ∃ kv ∈ it, kv.1 = f := by
        rw [← mem_allKeysOf, ← contains_iff_mem, hf]
        simp
      exact (decide_eq_false hno).symm
    · have hyes : ∃ it ∈ data, ∃ kv ∈ it, kv.1 = f := by
        rw [← mem_allKeysOf, ← contains_iff_mem, hf]
      exact (decide_eq_true hyes).symm
  · exact sorted_lt_of_le_nodup (List.sorted_insertionSort _ _) (nodup_restSort data)
  · intro o ho
    have hne : data.isEmpty = false := by
      cases data
      · exact absurd rfl h
      · rfl
    simp only [export_to_csv, hne, Bool.false_eq_true, if_false] at ho
    cases ho
    rfl
  · intro k h1 h2 h3
    have e1 : (k == "name") = false := beq_eq_false_iff_ne.mpr h1
    have e2 : (k == "info.meta.description") = false := beq_eq_false_iff_ne.mpr h2
    have e3 : (k == "info.params.system") = false := beq_eq_false_iff_ne.mpr h3
    simp [headerName, header_mapping, List.lookup, e1, e2, e3]

/-- Concrete run of C1: two items, keys `name`, `b`, `a`; hypothesis
`data ≠ []` discharged at this input. -/
theorem column_order_derivation_witness :
    ([[("b", JVal.null), ("name", JVal.str "m")], [("a", JVal.bool true)]] : List Item) ≠ [] ∧
    ∃ rest : List String,
      csvFieldnames [[("b", JVal.null), ("name", JVal.str "m")], [("a", JVal.bool true)]]
          = primary_fields.filter
              (fun f => decide (∃ it ∈ ([[("b", JVal.null), ("name", JVal.str "m")],
                  [("a", JVal.bool true)]] : List Item), ∃ kv ∈ it, kv.1 = f)) ++ rest ∧
      List.Sorted (· < ·) rest ∧
      (∀ k, k ∈ rest ↔ (∃ it ∈ ([[("b", JVal.null), ("name", JVal.str "m")],
          [("a", JVal.bool true)]] : List Item), ∃ kv ∈ it, kv.1 = k) ∧ k ∉ primary_fields) ∧
      (∀ o, export_to_csv [[("b", JVal.null), ("name", JVal.str "m")], [("a", JVal.bool true)]]
            = Except.ok o →
        o.header = (csvFieldnames [[("b", JVal.null), ("name", JVal.str "m")],
          [("a", JVal.bool true)]]).map headerName) ∧
      headerName "name" = "name" ∧
      headerName "info.meta.description" = "description" ∧
      headerName "info.params.system" = "system_prompt" ∧
      (∀ k, k ≠ "name" → k ≠ "info.meta.description" → k ≠ "info.params.system" →
        headerName k = k) :=
  ⟨by simp, column_order_derivation _ (by simp)⟩

theorem mem_csvFieldnames_union {data : List Item} {x : String}
    (hx : x ∈ csvFieldnames data) : x ∈ allKeysOf data := by
  rcases List.mem_append.mp hx with hp | hr
  · exact (contains_iff_mem _ _).mp (List.mem_filter.mp hp).2
  · exact (List.mem_filter.mp ((List.perm_insertionSort _ _).mem_iff.mp hr)).1

/-- C2.  Cross-renderer consistency: for every non-empty projected data list
the CSV, Excel and Markdown renderers compute the identical ordered column
sequence and the identical display-name header row. -/
theorem renderer_column_consistency (data : List Item) (h : data ≠ []) :
    markdownHeaders data = csvFieldnames data ∧
    excelOrderedColumns data = csvFieldnames data ∧
    (∀ oc om oe, export_to_csv data = Except.ok oc →
      export_to_markdown data = Except.ok om →
      export_to_excel data = Except.ok oe →
      om.header = oc.header ∧ oe.header = oc.header) := by
  have hmd : markdownHeaders data = csvFieldnames data := rfl
  have hex : excelOrderedColumns data = csvFieldnames data := by
    show (excelFieldnames data).filter (fun c => (dfColumns data).contains c)
        = csvFieldnames data
    have hfe : excelFieldnames data = csvFieldnames data := rfl
    rw [hfe]
    refine List.filter_eq_self.mpr (fun x hx => ?_)
    exact (contains_iff_mem _ _).mpr (mem_csvFieldnames_union hx)
  refine ⟨hmd, hex, fun oc om oe hc hm he => ?_⟩
  have hne : data.isEmpty = false := by
    cases data
    · exact absurd rfl h
    · rfl
  simp only [export_to_csv, export_to_markdown, export_to_excel, hne,
    Bool.false_eq_true, if_false] at hc hm he
  cases hc; cases hm; cases he
  exact ⟨congrArg (List.map headerName) hmd, congrArg (List.map headerName) hex⟩

/-- Concrete run of C2 at a one-item list. -/
theorem renderer_column_consistency_witness :
    ([[("name", JVal.str "m"), ("x", JVal.num 3)]] : List Item) ≠ [] ∧
    (markdownHeaders [[("name", JVal.str "m"), ("x", JVal.num 3)]]
        = csvFieldnames [[("name", JVal.str "m"), ("x", JVal.num 3)]] ∧
      excelOrderedColumns [[("name", JVal.str "m"), ("x", JVal.num 3)]]
        = csvFieldnames [[("name", JVal.str "m"), ("x", JVal.num 3)]] ∧
      (∀ oc om oe,
        export_to_csv [[("name", JVal.str "m"), ("x", JVal.num 3)]] = Except.ok oc →
        export_to_markdown [[("name", JVal.str "m"), ("x", JVal.num 3)]] = Except.ok om →
        export_to_excel [[("name", JVal.str "m"), ("x", JVal.num 3)]] = Except.ok oe →
        om.header = oc.header ∧ oe.header = oc.header)) :=
  ⟨by simp, renderer_column_consistency _ (by simp)⟩

/-- C7.  Each tabular renderer rejects an empty record list with
`ValueError("No data to export")` before producing any output, and never
raises that error on a non-empty list. -/
theorem empty_record_set_error (data : List Item) :
    (data = [] →
      export_to_csv data = Except.error "No data to export" ∧
      export_to_excel data = Except.error "No data to export" ∧
      export_to_markdown data = Except.error "No data to export") ∧
    (data ≠ [] →
      (∃ o, export_to_csv data = Except.ok o) ∧
      (∃ o, export_to_excel data = Except.ok o) ∧
      (∃ o, export_to_markdown data = Except.ok o)) := by
  constructor
  · rintro rfl
    exact ⟨rfl, rfl, rfl⟩
  · intro h
    have hne : data.isEmpty = false := by
      cases data
      · exact absurd rfl h
      · rfl
    simp only [export_to_csv, export_to_excel, export_to_markdown, hne,
      Bool.false_eq_true, if_false]
    exact ⟨⟨_, rfl⟩, ⟨_, rfl⟩, ⟨_, rfl⟩⟩

/-- Concrete runs of C7 at the empty list and at a one-item list. -/
theorem empty_record_set_error_witness :
    (export_to_csv [] = Except.error "No data to export" ∧
      export_to_excel [] = Except.error "No data to export" ∧
      export_to_markdown [] = Except.error "No data to export") ∧
    ((∃ o, export_to_csv [[("name", JVal.str "m")]] = Except.ok o) ∧
      (∃ o, export_to_excel [[("name", JVal.str "m")]] = Except.ok o) ∧
      (∃ o, export_to_markdown [[("name", JVal.str "m")]] = Except.ok o)) :=
  ⟨(empty_record_set_error []).1 rfl,
   (empty_record_set_error [[("name", JVal.str "m")]]).2 (by simp)⟩

/-- C10.  Order preservation along the pipeline: filtering keeps the
surviving records as an order-preserving subsequence of the input; extraction
yields exactly one projected item per surviving record, positionally; each
tabular renderer emits exactly one row per projected item, positionally. -/
theorem record_order_preservation :
    ∀ (data : List JVal) (selected : List String) (i : Nat),
      (filterPersonalData data).Sublist data ∧
      (extractAll selected data).length = data.length ∧
      (extractAll selected data)[i]? = (data[i]?).map (extract_item selected) ∧
      (∀ d o, export_to_csv d = Except.ok o →
        o.rows.length = d.length ∧
        o.rows[i]? = (d[i]?).map (fun it => (csvFieldnames d).map (fun f => itemGet it f))) ∧
      (∀ d o, export_to_markdown d = Except.ok o →
        o.rows.length = d.length ∧
        o.rows[i]? = (d[i]?).map
          (fun it => (markdownHeaders d).map (fun f => mdCell (itemGet it f)))) ∧
      (∀ d o, export_to_excel d = Except.ok o →
        o.rows.length = d.length ∧
        o.rows[i]? = (d[i]?).map
          (fun it => (excelOrderedColumns d).map (fun c => it.lookup c))) := by
  intro data selected i
  refine ⟨List.filter_sublist data, List.length_map data _,
    by rw [extractAll, List.getElem?_map], ?_, ?_, ?_⟩
  all_goals
    intro d o ho
    have hne : d.isEmpty = false := by
      cases d with
      | nil => cases ho
      | cons a t => rfl
  · simp only [export_to_csv, hne, Bool.false_eq_true, if_false] at ho
    cases ho
    exact ⟨List.length_map d _, by rw [List.getElem?_map]⟩
  · simp only [export_to_markdown, hne, Bool.false_eq_true, if_false] at ho
    cases ho
    exact ⟨List.length_map d _, by rw [List.getElem?_map]⟩
  · simp only [export_to_excel, hne, Bool.false_eq_true, if_false] at ho
    cases ho
    exact ⟨List.length_map d _, by rw [List.getElem?_map]⟩

/-- Concrete run of C10: a concrete filter input and concrete renderer
outputs, with every renderer hypothesis discharged. -/
theorem record_order_preservation_witness :
    (filterPersonalData [JVal.str "Daniel", JVal.num 1]).Sublist
        [JVal.str "Daniel", JVal.num 1] ∧
    (∃ o, export_to_csv [[("name", JVal.str "m")]] = Except.ok o ∧
      o.rows.length = 1 ∧
      o.rows[0]? = ((([[("name", JVal.str "m")]] : List Item))[0]?).map
        (fun it => (csvFieldnames [[("name", JVal.str "m")]]).map
          (fun f => itemGet it f))) ∧
    (∃ o, export_to_markdown [[("name", JVal.str "m")]] = Except.ok o ∧
      o.rows.length = 1 ∧
      o.rows[0]? = ((([[("name", JVal.str "m")]] : List Item))[0]?).map
        (fun it => (markdownHeaders [[("name", JVal.str "m")]]).map
          (fun f => mdCell (itemGet it f)))) ∧
    (∃ o, export_to_excel [[("name", JVal.str "m")]] = Except.ok o ∧
      o.rows.length = 1 ∧
      o.rows[0]? = ((([[("name", JVal.str "m")]] : List Item))[0]?).map
        (fun it => (excelOrderedColumns [[("name", JVal.str "m")]]).map
          (fun c => it.lookup c))) := by
  have hfull := record_order_preservation [JVal.str "Daniel", JVal.num 1] ["name"] 0
  refine ⟨hfull.1, ?_, ?_, ?_⟩
  · rcases (empty_record_set_error [[("name", JVal.str "m")]]).2 (by simp) with ⟨⟨o, ho⟩, -, -⟩
    have h := hfull.2.2.2.1 _ _ ho
    exact ⟨o, ho, by simpa using h.1, h.2⟩
  · rcases (empty_record_set_error [[("name", JVal.str "m")]]).2 (by simp) with ⟨-, -, ⟨o, ho⟩⟩
    have h := hfull.2.2.2.2.1 _ _ ho
    exact ⟨o, ho, by simpa using h.1, h.2⟩
  · rcases (empty_record_set_error [[("name", JVal.str "m")]]).2 (by simp) with ⟨-, ⟨o, ho⟩, -⟩
    have h := hfull.2.2.2.2.2 _ _ ho
    exact ⟨o, ho, by simpa using h.1, h.2⟩

/-! ## Hierarchical-markup renderer (`gui/program.py` lines 585-629)

```python
for key, value in item.items():
    if '.' in key:
        parts = key.split('.')
        current_elem = model_elem
        for i, part in enumerate(parts[:-1]):
            existing = None
            for child in current_elem.childNodes:
                if child.nodeName == part:
                    existing = child
                    break
            if existing is None:
                new_elem = doc.createElement(part)
                current_elem.appendChild(new_elem)
                current_elem = new_elem
            else:
                current_elem = existing
        field_elem = doc.createElement(parts[-1])
        text = doc.createTextNode(str(value) if value is not None else "")
        field_elem.appendChild(text)
        current_elem.appendChild(field_elem)
    else:
        # identical to the one-segment case of the dotted branch
        ...
```

`childNodes` include text nodes, whose minidom `nodeName` is `"#text"`; a
matched text node cannot take children (minidom raises
`xml.dom.HierarchyRequestErr`), modelled as `none`. -/

/-- A DOM node as built by `export_to_xml`. -/
inductive XNode where
  | elem (tag : String) (children : List XNode) : XNode
  | text (s : String) : XNode

def nodeName : XNode → String
  | XNode.elem t _ => t
  | XNode.text _ => "#text"

/-- The `for child in current_elem.childNodes` reuse scan: descend into the
first child whose `nodeName` is `p` with continuation `f` (reuse), or append
a fresh `p` element built from `f []` when no child matches. -/
def replaceFirst (p : String) (f : List XNode → Option (List XNode)) :
    List XNode → Option (List XNode)
  | [] => (f []).map (fun sub => [XNode.elem p sub])
  | c :: cs =>
    if nodeName c = p then
      match c with
      | XNode.elem t sub => (f sub).map (fun sub2 => XNode.elem t sub2 :: cs)
      | XNode.text _ => none
    else
      (replaceFirst p f cs).map (fun cs2 => c :: cs2)

/-- Insert one dotted key (already split on `'.'`, never empty) with leaf
text `txt` into an element's child list: intermediate segments reuse, the
leaf element is always appended. -/
def addPath : List String → String → List XNode → Option (List XNode)
  | [], _, _ => none
  | [last], txt, ch => some (ch ++ [XNode.elem last [XNode.text txt]])
  | p :: q :: rest, txt, ch => replaceFirst p (addPath (q :: rest) txt) ch

/-- `str(value) if value is not None else ""` on the leaf. -/
def leafText : JVal → String
  | JVal.null => ""
  | v => pyStr v

/-- One `<model>` element: the item's keys inserted in dict order. -/
def buildModel (item : Item) : Option XNode :=
  (item.foldlM (fun ch kv => addPath (splitDots kv.1) (leafText kv.2) ch) []).map
    (fun ch => XNode.elem "model" ch)

/-- The whole document: `<models>` with one `<model>` per item, in order. -/
def export_to_xml (data : List Item) : Option XNode :=
  (data.mapM buildModel).map (fun ms => XNode.elem "models" ms)

theorem replaceFirst_nil (p : String) (f : List XNode → Option (List XNode)) :
    replaceFirst p f [] = (f []).map (fun sub => [XNode.elem p sub]) := rfl

theorem replaceFirst_cons (p : String) (f : List XNode → Option (List XNode))
    (c : XNode) (cs : List XNode) :
    replaceFirst p f (c :: cs) =
      if nodeName c = p then
        match c with
        | XNode.elem t sub => (f sub).map (fun sub2 => XNode.elem t sub2 :: cs)
        | XNode.text _ => none
      else (replaceFirst p f cs).map (fun cs2 => c :: cs2) := rfl

theorem replaceFirst_match {p : String} {f : List XNode → Option (List XNode)}
    {ch r : List XNode} (hmem : ∃ x ∈ ch, nodeName x = p)
    (h : replaceFirst p f ch = some r) : r.map nodeName = ch.map nodeName := by
  induction ch generalizing r with
  | nil => obtain ⟨x, hx, -⟩ := hmem; exact absurd hx (List.not_mem_nil x)
  | cons c cs ih =>
    by_cases hc : nodeName c = p
    · rw [replaceFirst_cons, if_pos hc] at h
      cases c with
      | elem t sub =>
        have h2 : (f sub).map (fun sub2 => XNode.elem t sub2 :: cs) = some r := h
        cases hf : f sub with
        | none => rw [hf] at h2; cases h2
        | some sub2 =>
          rw [hf] at h2
          cases h2
          simp [nodeName]
      | text s => cases h
    · rw [replaceFirst_cons, if_neg hc] at h
      cases hrec : replaceFirst p f cs with
      | none => rw [hrec] at h; cases h
      | some cs2 =>
        rw [hrec] at h
        cases h
        have hmem2 : ∃ x ∈ cs, nodeName x = p := by
          obtain ⟨x, hx, hxp⟩ := hmem
          rcases List.mem_cons.mp hx with rfl | hx2
          · exact absurd hxp hc
          · exact ⟨x, hx2, hxp⟩
        simp [ih hmem2 hrec]

theorem replaceFirst_nomatch {p : String} {f : List XNode → Option (List XNode)}
    {ch r : List XNode} (hmem : ∀ x ∈ ch, nodeName x ≠ p)
    (h : replaceFirst p f ch = some r) :
    r.map nodeName = ch.map nodeName ++ [p] := by
  induction ch generalizing r with
  | nil =>
    cases hf : f [] with
    | none => rw [replaceFirst_nil, hf] at h; cases h
    | some sub =>
      rw [replaceFirst_nil, hf] at h
      cases h
      simp [nodeName]
  | cons c cs ih =>
    have hc : nodeName c ≠ p := hmem c (List.mem_cons_self c cs)
    rw [replaceFirst_cons, if_neg hc] at h
    cases hrec : replaceFirst p f cs with
    | none => rw [hrec] at h; cases h
    | some cs2 =>
      rw [hrec] at h
      cases h
      have := ih (fun x hx => hmem x (List.mem_cons_of_mem c hx)) hrec
      simp [this]

/-- C8.  XML structure: a dotted key `a.b.c` inserted into an empty element
produces the nested chain `a > b > c` holding the leaf text; with a sibling
of the same tag present at a nesting level the intermediate element is reused
(the sibling tag sequence is unchanged), and with none present exactly one
new sibling is appended; the leaf element is always appended with the string
form of the value as text, the empty string for null.  The concrete build at
the end shows two keys sharing the prefix `a.b` sharing both intermediate
elements. -/
theorem xml_nested_structure :
    (∀ a b c t, addPath [a, b, c] t [] =
      some [XNode.elem a [XNode.elem b [XNode.elem c [XNode.text t]]]]) ∧
    (∀ p parts t ch r, parts ≠ [] → (∃ x ∈ ch, nodeName x = p) →
      addPath (p :: parts) t ch = some r → r.map nodeName = ch.map nodeName) ∧
    (∀ p parts t ch r, parts ≠ [] → (∀ x ∈ ch, nodeName x ≠ p) →
      addPath (p :: parts) t ch = some r →
      r.map nodeName = ch.map nodeName ++ [p]) ∧
    (∀ last t ch, addPath [last] t ch = some (ch ++ [XNode.elem last [XNode.text t]])) ∧
    leafText JVal.null = "" ∧ (∀ s, leafText (JVal.str s) = s) ∧
    buildModel [("a.b.c", JVal.str "x"), ("a.b.d", JVal.null)] =
      some (XNode.elem "model" [XNode.elem "a" [XNode.elem "b"
        [XNode.elem "c" [XNode.text "x"], XNode.elem "d" [XNode.text ""]]]]) := by
  refine ⟨fun a b c t => rfl, ?_, ?_, fun last t ch => rfl, rfl, fun s => rfl, rfl⟩
  · intro p parts t ch r hne hmem h
    cases parts with
    | nil => exact absurd rfl hne
    | cons q rest => exact replaceFirst_match hmem h
  · intro p parts t ch r hne hmem h
    cases parts with
    | nil => exact absurd rfl hne
    | cons q rest => exact replaceFirst_nomatch hmem h

/-- Concrete runs of C8's conditional parts: reuse of the existing `a`
sibling leaves the sibling tags `["a"]` unchanged; insertion under a
non-matching sibling `z` appends exactly one `a`. -/
theorem xml_nested_structure_witness :
    ([XNode.elem "a" [XNode.elem "b" [XNode.text "x"]]] : List XNode).map nodeName
        = ([XNode.elem "a" []] : List XNode).map nodeName ∧
    ([XNode.elem "z" [], XNode.elem "a" [XNode.elem "b" [XNode.text "x"]]] :
        List XNode).map nodeName
        = ([XNode.elem "z" []] : List XNode).map nodeName ++ ["a"] := by
  constructor
  · refine xml_nested_structure.2.1 "a" ["b"] "x" [XNode.elem "a" []] _
      (by simp) ⟨XNode.elem "a" [], by simp, rfl⟩ rfl
  · refine xml_nested_structure.2.2.1 "a" ["b"] "x" [XNode.elem "z" []] _
      (by simp) ?_ rfl
    intro x hx
    rcases List.mem_singleton.mp hx with rfl
    intro hzp
    exact absurd hzp (by simp [nodeName])

/-! ## Structured-text renderer (`gui/program.py` lines 575-578)

```python
def export_to_json(self, data, output_path):
    with open(output_path, 'w', encoding='utf-8') as f:
        json.dump(data, f, indent=2)
```

`json.dump(data, f, indent=2)` and `json.loads` are standard-library
functions; they are modelled here by an executable printer and recursive-
descent parser over `List Char` with the exact `indent=2` layout (newline
after every bracket of a non-empty container, items indented two spaces per
level, `", "`-free item separator `,\n`, key separator `": "`).  Two
deliberate simplifications, neither observable through the round-trip: the
printer emits non-ASCII characters literally instead of `ensure_ascii`
`\uXXXX` escapes (the parser accepts both spellings), and the parser collects
object pairs in order without the duplicate-key last-wins rule, which
coincides with `json.loads` on documents whose objects have distinct keys —
the `wfItems` hypothesis below. -/

def jIndent (lvl : Nat) : List Char := List.replicate (2 * lvl) ' '

def hexDigitChar (n : Nat) : Char :=
  Char.ofNat (if n < 10 then 48 + n else 87 + n)

/-- One character of a JSON string, escaped as `json.dump` does (short
escapes for the usual control characters, `\u00XX` for the other C0
characters, everything else literal). -/
def escChar (c : Char) : List Char :=
  if c = '"' then ['\\', '"']
  else if c = '\\' then ['\\', '\\']
  else if c = '\n' then ['\\', 'n']
  else if c = '\t' then ['\\', 't']
  else if c = '\r' then ['\\', 'r']
  else if c = Char.ofNat 8 then ['\\', 'b']
  else if c = Char.ofNat 12 then ['\\', 'f']
  else if c.toNat < 32 then
    ['\\', 'u', '0', '0', hexDigitChar (c.toNat / 16), hexDigitChar (c.toNat % 16)]
  else [c]

def escList (cs : List Char) : List Char := cs.flatMap escChar

mutual

/-- `json.dumps(v, indent=2)` at nesting level `lvl`. -/
def renderJVal (lvl : Nat) : JVal → List Char
  | JVal.null => ['n', 'u', 'l', 'l']
  | JVal.bool true => ['t', 'r', 'u', 'e']
  | JVal.bool false => ['f', 'a', 'l', 's', 'e']
  | JVal.num n => renderInt n
  | JVal.str s => '"' :: escList s.data ++ ['"']
  | JVal.arr [] => ['[', ']']
  | JVal.arr (x :: xs) =>
    '[' :: '\n' :: renderArrItems lvl (x :: xs) ++ '\n' :: jIndent lvl ++ [']']
  | JVal.obj [] => ['{', '}']
  | JVal.obj (f :: fs) =>
    '{' :: '\n' :: renderObjItems lvl (f :: fs) ++ '\n' :: jIndent lvl ++ ['}']

/-- The comma-newline separated, indented array items. -/
def renderArrItems (lvl : Nat) : List JVal → List Char
  | [] => []
  | [x] => jIndent (lvl + 1) ++ renderJVal (lvl + 1) x
  | x :: y :: t =>
    jIndent (lvl + 1) ++ renderJVal (lvl + 1) x
      ++ ',' :: '\n' :: renderArrItems lvl (y :: t)

/-- The comma-newline separated, indented `"key": value` object items. -/
def renderObjItems (lvl : Nat) : List (String × JVal) → List Char
  | [] => []
  | [(k, v)] =>
    jIndent (lvl + 1) ++ '"' :: escList k.data
      ++ '"' :: ':' :: ' ' :: renderJVal (lvl + 1) v
  | (k, v) :: f :: fs =>
    jIndent (lvl + 1) ++ '"' :: escList k.data
      ++ '"' :: ':' :: ' ' :: renderJVal (lvl + 1) v
      ++ ',' :: '\n' :: renderObjItems lvl (f :: fs)

end

/-- `export_to_json`: the projected items dumped verbatim (original dotted
keys, no display-name renaming, no column reordering). -/
def export_to_json (data : List Item) : List Char :=
  renderJVal 0 (JVal.arr (data.map JVal.obj))

def isWsChar (c : Char) : Bool :=
  c = ' ' || c = '\n' || c = '\t' || c = '\r'

def skipWs : List Char → List Char
  | [] => []
  | c :: rest => if isWsChar c then skipWs rest else c :: rest

def hexVal (c : Char) : Option Nat :=
  if 48 ≤ c.toNat ∧ c.toNat ≤ 57 then some (c.toNat - 48)
  else if 97 ≤ c.toNat ∧ c.toNat ≤ 102 then some (c.toNat - 87)
  else if 65 ≤ c.toNat ∧ c.toNat ≤ 70 then some (c.toNat - 55)
  else none

/-- The short-escape table of a JSON string reader. -/
def escShort (e : Char) : Option Char :=
  if e = '"' then some '"'
  else if e = '\\' then some '\\'
  else if e = '/' then some '/'
  else if e = 'n' then some '\n'
  else if e = 't' then some '\t'
  else if e = 'r' then some '\r'
  else if e = 'b' then some (Char.ofNat 8)
  else if e = 'f' then some (Char.ofNat 12)
  else none

/-- Read a JSON string body up to (and past) the closing quote, decoding
escapes; `none` on a malformed body. -/
def parseStrBody : List Char → Option (List Char × List Char)
  | [] => none
  | c :: rest =>
    if c = '"' then some ([], rest)
    else if c = '\\' then
      match rest with
      | [] => none
      | e :: rest2 =>
        if e = 'u' then
          match rest2 with
          | h1 :: h2 :: h3 :: h4 :: rest3 =>
            match hexVal h1, hexVal h2, hexVal h3, hexVal h4 with
            | some a, some b, some x, some d =>
              (parseStrBody rest3).map
                (fun p => (Char.ofNat (((a * 16 + b) * 16 + x) * 16 + d) :: p.1, p.2))
            | _, _, _, _ => none
          | _ => none
        else
          match escShort e with
          | some c2 => (parseStrBody rest2).map (fun p => (c2 :: p.1, p.2))
          | none => none
    else (parseStrBody rest).map (fun p => (c :: p.1, p.2))

def digitVal (c : Char) : Nat := c.toNat - 48

/-- Read a nonempty digit run as a natural number. -/
def parseNatNum (s : List Char) : Option (Nat × List Char) :=
  let ds := s.takeWhile (fun c => c.isDigit)
  if ds.isEmpty then none
  else some (Nat.ofDigits 10 (ds.map digitVal).reverse,
    s.dropWhile (fun c => c.isDigit))

mutual

/-- One JSON value, fuel-bounded recursive descent; whitespace before every
token is skipped, as `json.loads` does. -/
def parseJVal : Nat → List Char → Option (JVal × List Char)
  | 0, _ => none
  | fuel + 1, s =>
    match skipWs s with
    | [] => none
    | c :: r =>
      if c = 'n' then
        match r with
        | 'u' :: 'l' :: 'l' :: r2 => some (JVal.null, r2)
        | _ => none
      else if c = 't' then
        match r with
        | 'r' :: 'u' :: 'e' :: r2 => some (JVal.bool true, r2)
        | _ => none
      else if c = 'f' then
        match r with
        | 'a' :: 'l' :: 's' :: 'e' :: r2 => some (JVal.bool false, r2)
        | _ => none
      else if c = '"' then
        (parseStrBody r).map (fun p => (JVal.str (String.mk p.1), p.2))
      else if c = '[' then
        match skipWs r with
        | [] => none
        | d :: r2 =>
          if d = ']' then some (JVal.arr [], r2)
          else (parseArrItems fuel r).map (fun p => (JVal.arr p.1, p.2))
      else if c = '{' then
        match skipWs r with
        | [] => none
        | d :: r2 =>
          if d = '}' then some (JVal.obj [], r2)
          else (parseObjItems fuel r).map (fun p => (JVal.obj p.1, p.2))
      else if c = '-' then
        (parseNatNum r).map (fun p => (JVal.num (-(p.1 : Int)), p.2))
      else if c.isDigit then
        (parseNatNum (c :: r)).map (fun p => (JVal.num (p.1 : Int), p.2))
      else none

/-- `value (',' value)* ']'` of a non-empty array. -/
def parseArrItems : Nat → List Char → Option (List JVal × List Char)
  | 0, _ => none
  | fuel + 1, s =>
    match parseJVal fuel s with
    | none => none
    | some (v, r) =>
      match skipWs r with
      | [] => none
      | c :: r2 =>
        if c = ',' then (parseArrItems fuel r2).map (fun p => (v :: p.1, p.2))
        else if c = ']' then some ([v], r2)
        else none

/-- `"key" ':' value (',' pair)* '}'` of a non-empty object. -/
def parseObjItems : Nat → List Char → Option (List (String × JVal) × List Char)
  | 0, _ => none
  | fuel + 1, s =>
    match skipWs s with
    | [] => none
    | c :: r =>
      if c = '"' then
        match parseStrBody r with
        | none => none
        | some (kcs, r2) =>
          match skipWs r2 with
          | [] => none
          | d :: r3 =>
            if d = ':' then
              match parseJVal fuel r3 with
              | none => none
              | some (v, r4) =>
                match skipWs r4 with
                | [] => none
                | e :: r5 =>
                  if e = ',' then
                    (parseObjItems fuel r5).map
                      (fun p => ((String.mk kcs, v) :: p.1, p.2))
                  else if e = '}' then some ([(String.mk kcs, v)], r5)
                  else none
            else none
      else none

end

mutual

/-- Enough fuel for the recursive descent on a rendered value. -/
def jNeed : JVal → Nat
  | JVal.arr (x :: xs) => 1 + jNeedArr (x :: xs)
  | JVal.obj (f :: fs) => 1 + jNeedObj (f :: fs)
  | _ => 1

def jNeedArr : List JVal → Nat
  | [] => 1
  | x :: xs => 1 + jNeed x + jNeedArr xs

def jNeedObj : List (String × JVal) → Nat
  | [] => 1
  | f :: fs => 1 + jNeed f.2 + jNeedObj fs

end

/-- `json.loads`: parse one value, allow trailing whitespace only. -/
def json_loads (s : List Char) : Option JVal :=
  match parseJVal (s.length + 1) s with
  | some (v, r) => if (skipWs r).isEmpty then some v else none
  | none => none

def nodupKeysB : List String → Bool
  | [] => true
  | k :: t => !t.contains k && nodupKeysB t

mutual

/-- Every object in the tree has distinct keys — true of every value built by
`json.load` from a document, and the region on which the parser model
coincides with `json.loads`. -/
def wfJVal : JVal → Bool
  | JVal.obj fs => nodupKeysB (fs.map Prod.fst) && wfFields fs
  | JVal.arr xs => wfArr xs
  | _ => true

def wfFields : List (String × JVal) → Bool
  | [] => true
  | f :: fs => wfJVal f.2 && wfFields fs

def wfArr : List JVal → Bool
  | [] => true
  | x :: xs => wfJVal x && wfArr xs

end

def wfItems (data : List Item) : Bool := wfJVal (JVal.arr (data.map JVal.obj))

/-! ### Round-trip, layer 1: whitespace, strings, numbers -/

theorem skipWs_cons_not {c : Char} (h : isWsChar c = false) (s : List Char) :
    skipWs (c :: s) = c :: s := by
  rw [skipWs, h]
  rfl

theorem skipWs_append_all {ws : List Char} (h : ∀ c ∈ ws, isWsChar c = true)
    (s : List Char) : skipWs (ws ++ s) = skipWs s := by
  induction ws with
  | nil => rfl
  | cons c t ih =>
    rw [List.cons_append, skipWs, h c (List.mem_cons_self c t)]
    exact ih (fun x hx => h x (List.mem_cons_of_mem c hx))

theorem jIndent_all_ws (lvl : Nat) : ∀ c ∈ jIndent lvl, isWsChar c = true := by
  intro c hc
  rw [jIndent] at hc
  rw [List.eq_of_mem_replicate hc]
  rfl

theorem skipWs_jIndent (lvl : Nat) (s : List Char) :
    skipWs (jIndent lvl ++ s) = skipWs s :=
  skipWs_append_all (jIndent_all_ws lvl) s

theorem hexVal_hexDigitChar : ∀ x : Nat, x < 16 →
    hexVal (hexDigitChar x) = some x := by decide

/-- Definitional unfolding of `parseStrBody` on a cons cell. -/
theorem parseStrBody_cons (c : Char) (rest : List Char) :
    parseStrBody (c :: rest) =
      (if c = '"' then some ([], rest)
       else if c = '\\' then
        match rest with
        | [] => none
        | e :: rest2 =>
          if e = 'u' then
            match rest2 with
            | h1 :: h2 :: h3 :: h4 :: rest3 =>
              match hexVal h1, hexVal h2, hexVal h3, hexVal h4 with
              | some a, some b, some x, some d =>
                (parseStrBody rest3).map
                  (fun p => (Char.ofNat (((a * 16 + b) * 16 + x) * 16 + d) :: p.1, p.2))
              | _, _, _, _ => none
            | _ => none
          else
            match escShort e with
            | some c2 => (parseStrBody rest2).map (fun p => (c2 :: p.1, p.2))
            | none => none
       else (parseStrBody rest).map (fun p => (c :: p.1, p.2))) := by
  conv_lhs => unfold parseStrBody

theorem parseStrBody_cons_plain {c : Char} (h1 : c ≠ '"') (h2 : c ≠ '\\')
    (rest : List Char) :
    parseStrBody (c :: rest) = (parseStrBody rest).map (fun p => (c :: p.1, p.2)) := by
  rw [parseStrBody_cons, if_neg h1, if_neg h2]

theorem parseStrBody_escape (cs rest : List Char) :
    parseStrBody (escList cs ++ '"' :: rest) = some (cs, rest) := by
  induction cs with
  | nil =>
    show parseStrBody ('"' :: rest) = some ([], rest)
    conv_lhs => unfold parseStrBody
    rfl
  | cons c cs ih =>
    have hstep : escList (c :: cs) ++ '"' :: rest
        = escChar c ++ (escList cs ++ '"' :: rest) := by
      simp [escList]
    rw [hstep]
    by_cases h1 : c = '"'
    · subst h1
      have hred : parseStrBody ('\\' :: '"' :: (escList cs ++ '"' :: rest))
          = (parseStrBody (escList cs ++ '"' :: rest)).map
              (fun p => ('"' :: p.1, p.2)) := by (conv_lhs => unfold parseStrBody); rfl
      rw [show escChar '"' ++ (escList cs ++ '"' :: rest)
          = '\\' :: '"' :: (escList cs ++ '"' :: rest) from rfl, hred, ih]
      rfl
    · by_cases h2 : c = '\\'
      · subst h2
        have hred : parseStrBody ('\\' :: '\\' :: (escList cs ++ '"' :: rest))
            = (parseStrBody (escList cs ++ '"' :: rest)).map
                (fun p => ('\\' :: p.1, p.2)) := by (conv_lhs => unfold parseStrBody); rfl
        rw [show escChar '\\' ++ (escList cs ++ '"' :: rest)
            = '\\' :: '\\' :: (escList cs ++ '"' :: rest) from rfl, hred, ih]
        rfl
      · by_cases h3 : c = '\n'
        · subst h3
          have hred : parseStrBody ('\\' :: 'n' :: (escList cs ++ '"' :: rest))
              = (parseStrBody (escList cs ++ '"' :: rest)).map
                  (fun p => ('\n' :: p.1, p.2)) := by (conv_lhs => unfold parseStrBody); rfl
          rw [show escChar '\n' ++ (escList cs ++ '"' :: rest)
              = '\\' :: 'n' :: (escList cs ++ '"' :: rest) from rfl, hred, ih]
          rfl
        · by_cases h4 : c = '\t'
          · subst h4
            have hred : parseStrBody ('\\' :: 't' :: (escList cs ++ '"' :: rest))
                = (parseStrBody (escList cs ++ '"' :: rest)).map
                    (fun p => ('\t' :: p.1, p.2)) := by (conv_lhs => unfold parseStrBody); rfl
            rw [show escChar '\t' ++ (escList cs ++ '"' :: rest)
                = '\\' :: 't' :: (escList cs ++ '"' :: rest) from rfl, hred, ih]
            rfl
          · by_cases h5 : c = '\r'
            · subst h5
              have hred : parseStrBody ('\\' :: 'r' :: (escList cs ++ '"' :: rest))
                  = (parseStrBody (escList cs ++ '"' :: rest)).map
                      (fun p => ('\r' :: p.1, p.2)) := by (conv_lhs => unfold parseStrBody); rfl
              rw [show escChar '\r' ++ (escList cs ++ '"' :: rest)
                  = '\\' :: 'r' :: (escList cs ++ '"' :: rest) from rfl, hred, ih]
              rfl
            · by_cases h6 : c = Char.ofNat 8
              · subst h6
                have hred : parseStrBody ('\\' :: 'b' :: (escList cs ++ '"' :: rest))
                    = (parseStrBody (escList cs ++ '"' :: rest)).map
                        (fun p => (Char.ofNat 8 :: p.1, p.2)) := by (conv_lhs => unfold parseStrBody); rfl
                rw [show escChar (Char.ofNat 8) ++ (escList cs ++ '"' :: rest)
                    = '\\' :: 'b' :: (escList cs ++ '"' :: rest) from rfl, hred, ih]
                rfl
              · by_cases h7 : c = Char.ofNat 12
                · subst h7
                  have hred : parseStrBody ('\\' :: 'f' :: (escList cs ++ '"' :: rest))
                      = (parseStrBody (escList cs ++ '"' :: rest)).map
                          (fun p => (Char.ofNat 12 :: p.1, p.2)) := by (conv_lhs => unfold parseStrBody); rfl
                  rw [show escChar (Char.ofNat 12) ++ (escList cs ++ '"' :: rest)
                      = '\\' :: 'f' :: (escList cs ++ '"' :: rest) from rfl, hred, ih]
                  rfl
                · by_cases h8 : c.toNat < 32
                  · have hesc : escChar c ++ (escList cs ++ '"' :: rest)
                        = '\\' :: 'u' :: '0' :: '0' :: hexDigitChar (c.toNat / 16)
                          :: hexDigitChar (c.toNat % 16) :: (escList cs ++ '"' :: rest) := by
                      simp only [escChar, if_neg h1, if_neg h2, if_neg h3, if_neg h4,
                        if_neg h5, if_neg h6, if_neg h7, if_pos h8]
                      rfl
                    rw [hesc]
                    have hred : parseStrBody ('\\' :: 'u' :: '0' :: '0'
                          :: hexDigitChar (c.toNat / 16) :: hexDigitChar (c.toNat % 16)
                          :: (escList cs ++ '"' :: rest))
                        = (match hexVal '0', hexVal '0',
                              hexVal (hexDigitChar (c.toNat / 16)),
                              hexVal (hexDigitChar (c.toNat % 16)) with
                           | some a, some b, some x, some d =>
                             (parseStrBody (escList cs ++ '"' :: rest)).map
                               (fun p =>
                                 (Char.ofNat (((a * 16 + b) * 16 + x) * 16 + d) :: p.1,
                                   p.2))
                           | _, _, _, _ => none) := by (conv_lhs => unfold parseStrBody); rfl
                    rw [hred, hexVal_hexDigitChar (c.toNat / 16) (by omega),
                      hexVal_hexDigitChar (c.toNat % 16) (by omega),
                      show hexVal '0' = some 0 from rfl]
                    show (parseStrBody (escList cs ++ '"' :: rest)).map
                        (fun p => (Char.ofNat
                          (((0 * 16 + 0) * 16 + c.toNat / 16) * 16 + c.toNat % 16)
                            :: p.1, p.2)) = _
                    rw [ih]
                    show some (Char.ofNat
                        (((0 * 16 + 0) * 16 + c.toNat / 16) * 16 + c.toNat % 16)
                          :: cs, rest) = _
                    rw [show ((0 * 16 + 0) * 16 + c.toNat / 16) * 16 + c.toNat % 16
                        = c.toNat by omega, Char.ofNat_toNat]
                  · have hesc : escChar c ++ (escList cs ++ '"' :: rest)
                        = c :: (escList cs ++ '"' :: rest) := by
                      simp only [escChar, if_neg h1, if_neg h2, if_neg h3, if_neg h4,
                        if_neg h5, if_neg h6, if_neg h7, if_neg h8]
                      rfl
                    rw [hesc, parseStrBody_cons_plain h1 h2, ih]
                    rfl

/-- Heads that stop a digit run. -/
def noDigitHead : List Char → Bool
  | [] => true
  | c :: _ => !c.isDigit

theorem takeWhile_append_all {p : Char → Bool} {l : List Char}
    (h : ∀ c ∈ l, p c = true) (r : List Char) :
    (l ++ r).takeWhile p = l ++ r.takeWhile p := by
  induction l with
  | nil => rfl
  | cons c t ih =>
    rw [List.cons_append, List.takeWhile_cons, h c (List.mem_cons_self c t)]
    rw [ih (fun x hx => h x (List.mem_cons_of_mem c hx))]
    rfl

theorem dropWhile_append_all {p : Char → Bool} {l : List Char}
    (h : ∀ c ∈ l, p c = true) (r : List Char) :
    (l ++ r).dropWhile p = r.dropWhile p := by
  induction l with
  | nil => rfl
  | cons c t ih =>
    rw [List.cons_append, List.dropWhile_cons, h c (List.mem_cons_self c t)]
    exact ih (fun x hx => h x (List.mem_cons_of_mem c hx))

theorem digit_char_toNat : ∀ d : Nat, d < 10 → (Char.ofNat (48 + d)).toNat = 48 + d := by
  decide

theorem digit_char_isDigit : ∀ d : Nat, d < 10 → (Char.ofNat (48 + d)).isDigit = true := by
  decide

theorem renderNat_all_digit (n : Nat) : ∀ c ∈ renderNat n, c.isDigit = true := by
  intro c hc
  rw [renderNat] at hc
  by_cases h : n = 0
  · rw [if_pos h] at hc
    rw [List.mem_singleton.mp hc]
    rfl
  · rw [if_neg h] at hc
    obtain ⟨d, hd, rfl⟩ := List.mem_map.mp hc
    have hd10 : d < 10 :=
      Nat.digits_lt_base (by norm_num) (List.mem_reverse.mp hd)
    exact digit_char_isDigit d hd10

theorem renderNat_ne_nil (n : Nat) : renderNat n ≠ [] := by
  rw [renderNat]
  by_cases h : n = 0
  · rw [if_pos h]; exact List.cons_ne_nil _ _
  · rw [if_neg h]
    simp only [ne_eq, List.map_eq_nil_iff, List.reverse_eq_nil_iff]
    exact Nat.digits_ne_nil_iff_ne_zero.mpr h

theorem ofDigits_renderNat (n : Nat) :
    Nat.ofDigits 10 ((renderNat n).map digitVal).reverse = n := by
  rw [renderNat]
  by_cases h : n = 0
  · rw [if_pos h, h]
    simp [digitVal, Nat.ofDigits]
  · rw [if_neg h, List.map_map]
    have hmap : (Nat.digits 10 n).reverse.map (digitVal ∘ (fun d => Char.ofNat (48 + d)))
        = (Nat.digits 10 n).reverse.map id := by
      refine List.map_congr_left (fun d hd => ?_)
      have hd10 : d < 10 :=
        Nat.digits_lt_base (by norm_num) (List.mem_reverse.mp hd)
      show (Char.ofNat (48 + d)).toNat - 48 = d
      rw [digit_char_toNat d hd10]
      omega
    rw [hmap, List.map_id, List.reverse_reverse, Nat.ofDigits_digits]

theorem parseNatNum_renderNat (n : Nat) (rest : List Char)
    (h : noDigitHead rest = true) :
    parseNatNum (renderNat n ++ rest) = some (n, rest) := by
  have htake : (renderNat n ++ rest).takeWhile (fun c => c.isDigit)
      = renderNat n := by
    rw [takeWhile_append_all (renderNat_all_digit n)]
    cases rest with
    | nil => simp
    | cons c t =>
      have hcd : c.isDigit = false := by
        rw [noDigitHead] at h
        simpa using h
      simp [List.takeWhile_cons, hcd]
  have hdrop : (renderNat n ++ rest).dropWhile (fun c => c.isDigit) = rest := by
    rw [dropWhile_append_all (renderNat_all_digit n)]
    cases rest with
    | nil => rfl
    | cons c t =>
      have hcd : c.isDigit = false := by
        rw [noDigitHead] at h
        simpa using h
      simp [List.dropWhile_cons, hcd]
  rw [parseNatNum]
  simp only [htake, hdrop]
  rw [if_neg (by simp [List.isEmpty_iff, renderNat_ne_nil n])]
  rw [ofDigits_renderNat]

/-! ### Round-trip, layer 2: parser branch lemmas -/

theorem parseJVal_zero (s : List Char) : parseJVal 0 s = none := by
  conv_lhs => unfold parseJVal

theorem parseJVal_congr_skipWs {s1 s2 : List Char} (h : skipWs s1 = skipWs s2)
    (fuel : Nat) : parseJVal fuel s1 = parseJVal fuel s2 := by
  cases fuel with
  | zero => rw [parseJVal_zero, parseJVal_zero]
  | succ f =>
    conv_lhs => unfold parseJVal
    conv_rhs => unfold parseJVal
    rw [h]

theorem parseJVal_ws {ws : List Char} (h : ∀ c ∈ ws, isWsChar c = true)
    (fuel : Nat) (s : List Char) :
    parseJVal fuel (ws ++ s) = parseJVal fuel s :=
  parseJVal_congr_skipWs (skipWs_append_all h s) fuel

theorem parseJVal_null {s : List Char} {rest : List Char}
    (h : skipWs s = 'n' :: 'u' :: 'l' :: 'l' :: rest) (fuel : Nat) :
    parseJVal (fuel + 1) s = some (JVal.null, rest) := by
  conv_lhs => unfold parseJVal
  rw [h]
  rfl

theorem parseJVal_true {s rest : List Char}
    (h : skipWs s = 't' :: 'r' :: 'u' :: 'e' :: rest) (fuel : Nat) :
    parseJVal (fuel + 1) s = some (JVal.bool true, rest) := by
  conv_lhs => unfold parseJVal
  rw [h]
  rfl

theorem parseJVal_false {s rest : List Char}
    (h : skipWs s = 'f' :: 'a' :: 'l' :: 's' :: 'e' :: rest) (fuel : Nat) :
    parseJVal (fuel + 1) s = some (JVal.bool false, rest) := by
  conv_lhs => unfold parseJVal
  rw [h]
  rfl

theorem parseJVal_quote {s r : List Char}
    (h : skipWs s = '"' :: r) (fuel : Nat) :
    parseJVal (fuel + 1) s
      = (parseStrBody r).map (fun p => (JVal.str (String.mk p.1), p.2)) := by
  conv_lhs => unfold parseJVal
  rw [h]
  rfl

theorem parseJVal_lbracket {s r : List Char}
    (h : skipWs s = '[' :: r) (fuel : Nat) :
    parseJVal (fuel + 1) s
      = (match skipWs r with
         | [] => none
         | d :: r2 =>
           if d = ']' then some (JVal.arr [], r2)
           else (parseArrItems fuel r).map (fun p => (JVal.arr p.1, p.2))) := by
  conv_lhs => unfold parseJVal
  rw [h]
  rfl

theorem parseJVal_lbrace {s r : List Char}
    (h : skipWs s = '{' :: r) (fuel : Nat) :
    parseJVal (fuel + 1) s
      = (match skipWs r with
         | [] => none
         | d :: r2 =>
           if d = '}' then some (JVal.obj [], r2)
           else (parseObjItems fuel r).map (fun p => (JVal.obj p.1, p.2))) := by
  conv_lhs => unfold parseJVal
  rw [h]
  rfl

theorem parseJVal_minus {s r : List Char}
    (h : skipWs s = '-' :: r) (fuel : Nat) :
    parseJVal (fuel + 1) s
      = (parseNatNum r).map (fun p => (JVal.num (-(p.1 : Int)), p.2)) := by
  conv_lhs => unfold parseJVal
  rw [h]
  rfl

/-- A digit character is none of the token-starting characters, is not
whitespace, and closes no bracket. -/
theorem isDigit_facts {c : Char} (h : c.isDigit = true) :
    isWsChar c = false ∧ c ≠ 'n' ∧ c ≠ 't' ∧ c ≠ 'f' ∧ c ≠ '"' ∧ c ≠ '[' ∧
      c ≠ '{' ∧ c ≠ '-' ∧ c ≠ ']' ∧ c ≠ '}' ∧ c ≠ ',' := by
  have hne : ∀ x : Char, x.isDigit = false → c ≠ x := by
    intro x hx hc
    rw [hc, hx] at h
    cases h
  have w1 : c ≠ ' ' := hne ' ' (by decide)
  have w2 : c ≠ '\n' := hne '\n' (by decide)
  have w3 : c ≠ '\t' := hne '\t' (by decide)
  have w4 : c ≠ '\r' := hne '\r' (by decide)
  refine ⟨?_, hne 'n' (by decide), hne 't' (by decide), hne 'f' (by decide),
    hne '"' (by decide), hne '[' (by decide), hne '{' (by decide),
    hne '-' (by decide), hne ']' (by decide), hne '}' (by decide),
    hne ',' (by decide)⟩
  simp [isWsChar, w1, w2, w3, w4]

theorem parseJVal_digit {s r : List Char} {c : Char}
    (h : skipWs s = c :: r) (hd : c.isDigit = true) (fuel : Nat) :
    parseJVal (fuel + 1) s
      = (parseNatNum (c :: r)).map (fun p => (JVal.num (p.1 : Int), p.2)) := by
  obtain ⟨-, hn, ht, hf, hq, hlb, hob, hm, -, -, -⟩ := isDigit_facts hd
  conv_lhs => unfold parseJVal
  rw [h]
  simp only [if_neg hn, if_neg ht, if_neg hf, if_neg hq, if_neg hlb, if_neg hob,
    if_neg hm, if_pos hd]

theorem parseArrItems_succ (fuel : Nat) (s : List Char) :
    parseArrItems (fuel + 1) s =
      (match parseJVal fuel s with
       | none => none
       | some (v, r) =>
         match skipWs r with
         | [] => none
         | c :: r2 =>
           if c = ',' then (parseArrItems fuel r2).map (fun p => (v :: p.1, p.2))
           else if c = ']' then some ([v], r2)
           else none) := by
  conv_lhs => unfold parseArrItems

theorem parseObjItems_succ (fuel : Nat) (s : List Char) :
    parseObjItems (fuel + 1) s =
      (match skipWs s with
       | [] => none
       | c :: r =>
         if c = '"' then
           match parseStrBody r with
           | none => none
           | some (kcs, r2) =>
             match skipWs r2 with
             | [] => none
             | d :: r3 =>
               if d = ':' then
                 match parseJVal fuel r3 with
                 | none => none
                 | some (v, r4) =>
                   match skipWs r4 with
                   | [] => none
                   | e :: r5 =>
                     if e = ',' then
                       (parseObjItems fuel r5).map
                         (fun p => ((String.mk kcs, v) :: p.1, p.2))
                     else if e = '}' then some ([(String.mk kcs, v)], r5)
                     else none
               else none
         else none) := by
  conv_lhs => unfold parseObjItems

/-- Every rendered value starts with a non-whitespace character that closes
no bracket. -/
theorem renderJVal_head (lvl : Nat) (v : JVal) :
    ∃ c t, renderJVal lvl v = c :: t ∧ isWsChar c = false ∧ c ≠ ']' ∧ c ≠ '}' := by
  cases v with
  | null => exact ⟨'n', _, rfl, by decide, by decide, by decide⟩
  | bool b =>
    cases b
    · exact ⟨'f', _, rfl, by decide, by decide, by decide⟩
    · exact ⟨'t', _, rfl, by decide, by decide, by decide⟩
  | num n =>
    show ∃ c t, renderInt n = c :: t ∧ _
    rw [renderInt]
    by_cases hneg : n < 0
    · rw [if_pos hneg]
      exact ⟨'-', _, rfl, by decide, by decide, by decide⟩
    · rw [if_neg hneg]
      cases hr : renderNat n.natAbs with
      | nil => exact absurd hr (renderNat_ne_nil _)
      | cons c t =>
        have hd : c.isDigit = true :=
          renderNat_all_digit _ c (hr ▸ List.mem_cons_self c t)
        obtain ⟨hws, -, -, -, -, -, -, -, hrb, hcb, -⟩ := isDigit_facts hd
        exact ⟨c, t, rfl, hws, hrb, hcb⟩
  | str s => exact ⟨'"', _, rfl, by decide, by decide, by decide⟩
  | arr xs =>
    cases xs with
    | nil => exact ⟨'[', _, rfl, by decide, by decide, by decide⟩
    | cons x t => exact ⟨'[', _, rfl, by decide, by decide, by decide⟩
  | obj fs =>
    cases fs with
    | nil => exact ⟨'{', _, rfl, by decide, by decide, by decide⟩
    | cons f t => exact ⟨'{', _, rfl, by decide, by decide, by decide⟩

theorem jNeed_pos (v : JVal) : 1 ≤ jNeed v := by
  cases v with
  | arr xs => cases xs <;> simp [jNeed]
  | obj fs => cases fs <;> simp [jNeed]
  | null => simp [jNeed]
  | bool b => simp [jNeed]
  | num n => simp [jNeed]
  | str s => simp [jNeed]

/-! ### Round-trip, layer 3: the induction -/

/-- The value round-trip statement: parsing the rendered value consumes
exactly it and returns the trailing input, whenever the trailing input does
not begin with a digit (a digit would extend a rendered number; rendered
separators and closers never are digits). -/
abbrev RoundTrip (v : JVal) : Prop :=
  ∀ (lvl : Nat) (rest : List Char) (fuel : Nat),
    jNeed v ≤ fuel → noDigitHead rest = true →
    parseJVal fuel (renderJVal lvl v ++ rest) = some (v, rest)

theorem jNeedArr_cons (x : JVal) (t : List JVal) :
    jNeedArr (x :: t) = 1 + jNeed x + jNeedArr t := rfl

theorem jNeedObj_cons (f : String × JVal) (t : List (String × JVal)) :
    jNeedObj (f :: t) = 1 + jNeed f.2 + jNeedObj t := rfl

theorem jNeedArr_pos (xs : List JVal) : 1 ≤ jNeedArr xs := by
  cases xs with
  | nil => simp [jNeedArr]
  | cons x t => rw [jNeedArr_cons]; omega

theorem jNeedObj_pos (fs : List (String × JVal)) : 1 ≤ jNeedObj fs := by
  cases fs with
  | nil => simp [jNeedObj]
  | cons f t => rw [jNeedObj_cons]; omega

theorem ws_append_ws {ws1 ws2 : List Char} (h1 : ∀ c ∈ ws1, isWsChar c = true)
    (h2 : ∀ c ∈ ws2, isWsChar c = true) :
    ∀ c ∈ ws1 ++ ws2, isWsChar c = true := by
  intro c hc
  rcases List.mem_append.mp hc with h | h
  · exact h1 c h
  · exact h2 c h

theorem parseArr_render {n : Nat} (ihN : ∀ v : JVal, sizeOf v ≤ n → RoundTrip v) :
    ∀ (xs : List JVal), (∀ x ∈ xs, sizeOf x ≤ n) → xs ≠ [] →
    ∀ (lvl : Nat) (ws rest : List Char) (fuel : Nat),
      jNeedArr xs ≤ fuel → (∀ c ∈ ws, isWsChar c = true) →
      parseArrItems fuel
        (ws ++ (renderArrItems lvl xs ++ ('\n' :: (jIndent lvl ++ (']' :: rest)))))
        = some (xs, rest) := by
  intro xs
  induction xs with
  | nil => intro _ hne; exact absurd rfl hne
  | cons x t ihxs =>
    intro hsz _ lvl ws rest fuel hfuel hws
    rw [jNeedArr_cons] at hfuel
    obtain ⟨f, rfl⟩ : ∃ f, fuel = f + 1 := ⟨fuel - 1, by omega⟩
    have hxsz : sizeOf x ≤ n := hsz x (List.mem_cons_self x t)
    have hjx : jNeed x ≤ f := by have := jNeedArr_pos t; omega
    cases t with
    | nil =>
      have hshape : ws ++ (renderArrItems lvl [x]
            ++ ('\n' :: (jIndent lvl ++ (']' :: rest))))
          = (ws ++ jIndent (lvl + 1))
            ++ (renderJVal (lvl + 1) x ++ ('\n' :: (jIndent lvl ++ (']' :: rest)))) := by
        show ws ++ ((jIndent (lvl + 1) ++ renderJVal (lvl + 1) x)
            ++ ('\n' :: (jIndent lvl ++ (']' :: rest)))) = _
        simp [List.append_assoc]
      rw [hshape, parseArrItems_succ,
        parseJVal_ws (ws_append_ws hws (jIndent_all_ws (lvl + 1))) f,
        ihN x hxsz (lvl + 1) ('\n' :: (jIndent lvl ++ (']' :: rest))) f hjx rfl]
      show (match skipWs ('\n' :: (jIndent lvl ++ (']' :: rest))) with
            | [] => none
            | c :: r2 =>
              if c = ',' then (parseArrItems f r2).map (fun p => (x :: p.1, p.2))
              else if c = ']' then some ([x], r2)
              else none) = some ([x], rest)
      have hsk : skipWs ('\n' :: (jIndent lvl ++ (']' :: rest))) = ']' :: rest := by
        rw [show ('\n' :: (jIndent lvl ++ (']' :: rest)))
            = (['\n'] ++ jIndent lvl) ++ (']' :: rest) by simp]
        rw [skipWs_append_all (ws_append_ws (by decide) (jIndent_all_ws lvl))]
        exact skipWs_cons_not (by decide) rest
      rw [hsk]
      rfl
    | cons y t2 =>
      have hshape : ws ++ (renderArrItems lvl (x :: y :: t2)
            ++ ('\n' :: (jIndent lvl ++ (']' :: rest))))
          = (ws ++ jIndent (lvl + 1))
            ++ (renderJVal (lvl + 1) x
              ++ (',' :: ('\n' :: (renderArrItems lvl (y :: t2)
                ++ ('\n' :: (jIndent lvl ++ (']' :: rest))))))) := by
        show ws ++ ((jIndent (lvl + 1) ++ renderJVal (lvl + 1) x
            ++ ',' :: '\n' :: renderArrItems lvl (y :: t2))
            ++ ('\n' :: (jIndent lvl ++ (']' :: rest)))) = _
        simp [List.append_assoc]
      rw [hshape, parseArrItems_succ,
        parseJVal_ws (ws_append_ws hws (jIndent_all_ws (lvl + 1))) f,
        ihN x hxsz (lvl + 1)
          (',' :: ('\n' :: (renderArrItems lvl (y :: t2)
            ++ ('\n' :: (jIndent lvl ++ (']' :: rest)))))) f hjx rfl]
      show (match skipWs (',' :: ('\n' :: (renderArrItems lvl (y :: t2)
              ++ ('\n' :: (jIndent lvl ++ (']' :: rest)))))) with
            | [] => none
            | c :: r2 =>
              if c = ',' then (parseArrItems f r2).map (fun p => (x :: p.1, p.2))
              else if c = ']' then some ([x], r2)
              else none) = some (x :: y :: t2, rest)
      rw [skipWs_cons_not (by decide)]
      show (parseArrItems f ('\n' :: (renderArrItems lvl (y :: t2)
              ++ ('\n' :: (jIndent lvl ++ (']' :: rest)))))).map
          (fun p => (x :: p.1, p.2)) = some (x :: y :: t2, rest)
      have hcall : parseArrItems f ('\n' :: (renderArrItems lvl (y :: t2)
            ++ ('\n' :: (jIndent lvl ++ (']' :: rest))))) = some (y :: t2, rest) :=
        ihxs (fun z hz => hsz z (List.mem_cons_of_mem x hz)) (List.cons_ne_nil y t2)
          lvl ['\n'] rest f (by omega) (by decide)
      rw [hcall]
      rfl

theorem parseObj_render {n : Nat} (ihN : ∀ v : JVal, sizeOf v ≤ n → RoundTrip v) :
    ∀ (fs : List (String × JVal)), (∀ f ∈ fs, sizeOf f.2 ≤ n) → fs ≠ [] →
    ∀ (lvl : Nat) (ws rest : List Char) (fuel : Nat),
      jNeedObj fs ≤ fuel → (∀ c ∈ ws, isWsChar c = true) →
      parseObjItems fuel
        (ws ++ (renderObjItems lvl fs ++ ('\n' :: (jIndent lvl ++ ('}' :: rest)))))
        = some (fs, rest) := by
  intro fs
  induction fs with
  | nil => intro _ hne; exact absurd rfl hne
  | cons fv t ihfs =>
    obtain ⟨k, v⟩ := fv
    intro hsz _ lvl ws rest fuel hfuel hws
    rw [jNeedObj_cons] at hfuel
    obtain ⟨f, rfl⟩ : ∃ f, fuel = f + 1 := ⟨fuel - 1, by omega⟩
    have hvsz : sizeOf v ≤ n := hsz (k, v) (List.mem_cons_self _ t)
    have hjv : jNeed v ≤ f := by
      have := jNeedObj_pos t
      have : jNeed (k, v).2 ≤ f := by omega
      exact this
    cases t with
    | nil =>
      have hshape : ws ++ (renderObjItems lvl [(k, v)]
            ++ ('\n' :: (jIndent lvl ++ ('}' :: rest))))
          = (ws ++ jIndent (lvl + 1))
            ++ ('"' :: (escList k.data ++ ('"' :: (':' :: (' ' :: (renderJVal (lvl + 1) v
              ++ ('\n' :: (jIndent lvl ++ ('}' :: rest))))))))) := by
        show ws ++ ((jIndent (lvl + 1) ++ '"' :: escList k.data
            ++ '"' :: ':' :: ' ' :: renderJVal (lvl + 1) v)
            ++ ('\n' :: (jIndent lvl ++ ('}' :: rest)))) = _
        simp [List.append_assoc]
      have hskip : skipWs ((ws ++ jIndent (lvl + 1))
            ++ ('"' :: (escList k.data ++ ('"' :: (':' :: (' ' :: (renderJVal (lvl + 1) v
              ++ ('\n' :: (jIndent lvl ++ ('}' :: rest))))))))))
          = '"' :: (escList k.data ++ ('"' :: (':' :: (' ' :: (renderJVal (lvl + 1) v
              ++ ('\n' :: (jIndent lvl ++ ('}' :: rest)))))))) := by
        rw [skipWs_append_all (ws_append_ws hws (jIndent_all_ws (lvl + 1)))]
        exact skipWs_cons_not (by decide) _
      rw [hshape, parseObjItems_succ, hskip]
      show (match parseStrBody (escList k.data ++ ('"' :: (':' :: (' '
              :: (renderJVal (lvl + 1) v ++ ('\n' :: (jIndent lvl ++ ('}' :: rest))))))))
            with
            | none => none
            | some (kcs, r2) =>
              match skipWs r2 with
              | [] => none
              | d :: r3 =>
                if d = ':' then
                  match parseJVal f r3 with
                  | none => none
                  | some (w, r4) =>
                    match skipWs r4 with
                    | [] => none
                    | e :: r5 =>
                      if e = ',' then
                        (parseObjItems f r5).map
                          (fun p => ((String.mk kcs, w) :: p.1, p.2))
                      else if e = '}' then some ([(String.mk kcs, w)], r5)
                      else none
                else none) = some ([(k, v)], rest)
      rw [parseStrBody_escape]
      show (match skipWs (':' :: (' ' :: (renderJVal (lvl + 1) v
              ++ ('\n' :: (jIndent lvl ++ ('}' :: rest)))))) with
            | [] => none
            | d :: r3 =>
              if d = ':' then
                match parseJVal f r3 with
                | none => none
                | some (w, r4) =>
                  match skipWs r4 with
                  | [] => none
                  | e :: r5 =>
                    if e = ',' then
                      (parseObjItems f r5).map
                        (fun p => ((String.mk k.data, w) :: p.1, p.2))
                    else if e = '}' then some ([(String.mk k.data, w)], r5)
                    else none
              else none) = some ([(k, v)], rest)
      rw [skipWs_cons_not (by decide)]
      have hv : parseJVal f (' ' :: (renderJVal (lvl + 1) v
            ++ ('\n' :: (jIndent lvl ++ ('}' :: rest)))))
          = some (v, '\n' :: (jIndent lvl ++ ('}' :: rest))) := by
        have := @parseJVal_ws [' '] (by decide) f
          (renderJVal (lvl + 1) v ++ ('\n' :: (jIndent lvl ++ ('}' :: rest))))
        rw [show (' ' :: (renderJVal (lvl + 1) v
            ++ ('\n' :: (jIndent lvl ++ ('}' :: rest)))) : List Char)
            = [' '] ++ (renderJVal (lvl + 1) v
              ++ ('\n' :: (jIndent lvl ++ ('}' :: rest)))) from rfl, this]
        exact ihN v hvsz (lvl + 1) _ f hjv rfl
      show (match parseJVal f (' ' :: (renderJVal (lvl + 1) v
              ++ ('\n' :: (jIndent lvl ++ ('}' :: rest))))) with
            | none => none
            | some (w, r4) =>
              match skipWs r4 with
              | [] => none
              | e :: r5 =>
                if e = ',' then
                  (parseObjItems f r5).map
                    (fun p => ((String.mk k.data, w) :: p.1, p.2))
                else if e = '}' then some ([(String.mk k.data, w)], r5)
                else none) = some ([(k, v)], rest)
      rw [hv]
      show (match skipWs ('\n' :: (jIndent lvl ++ ('}' :: rest))) with
            | [] => none
            | e :: r5 =>
              if e = ',' then
                (parseObjItems f r5).map
                  (fun p => ((String.mk k.data, v) :: p.1, p.2))
              else if e = '}' then some ([(String.mk k.data, v)], r5)
              else none) = some ([(k, v)], rest)
      have hskZ : skipWs ('\n' :: (jIndent lvl ++ ('}' :: rest))) = '}' :: rest := by
        rw [show ('\n' :: (jIndent lvl ++ ('}' :: rest)))
            = (['\n'] ++ jIndent lvl) ++ ('}' :: rest) by simp]
        rw [skipWs_append_all (ws_append_ws (by decide) (jIndent_all_ws lvl))]
        exact skipWs_cons_not (by decide) rest
      rw [hskZ]
      rfl
    | cons g t2 =>
      have hshape : ws ++ (renderObjItems lvl ((k, v) :: g :: t2)
            ++ ('\n' :: (jIndent lvl ++ ('}' :: rest))))
          = (ws ++ jIndent (lvl + 1))
            ++ ('"' :: (escList k.data ++ ('"' :: (':' :: (' ' :: (renderJVal (lvl + 1) v
              ++ (',' :: ('\n' :: (renderObjItems lvl (g :: t2)
                ++ ('\n' :: (jIndent lvl ++ ('}' :: rest)))))))))))) := by
        show ws ++ ((jIndent (lvl + 1) ++ '"' :: escList k.data
            ++ '"' :: ':' :: ' ' :: renderJVal (lvl + 1) v
            ++ ',' :: '\n' :: renderObjItems lvl (g :: t2))
            ++ ('\n' :: (jIndent lvl ++ ('}' :: rest)))) = _
        simp [List.append_assoc]
      have hskip : skipWs ((ws ++ jIndent (lvl + 1))
            ++ ('"' :: (escList k.data ++ ('"' :: (':' :: (' ' :: (renderJVal (lvl + 1) v
              ++ (',' :: ('\n' :: (renderObjItems lvl (g :: t2)
                ++ ('\n' :: (jIndent lvl ++ ('}' :: rest)))))))))))))
          = '"' :: (escList k.data ++ ('"' :: (':' :: (' ' :: (renderJVal (lvl + 1) v
              ++ (',' :: ('\n' :: (renderObjItems lvl (g :: t2)
                ++ ('\n' :: (jIndent lvl ++ ('}' :: rest))))))))))) := by
        rw [skipWs_append_all (ws_append_ws hws (jIndent_all_ws (lvl + 1)))]
        exact skipWs_cons_not (by decide) _
      rw [hshape, parseObjItems_succ, hskip]
      show (match parseStrBody (escList k.data ++ ('"' :: (':' :: (' '
              :: (renderJVal (lvl + 1) v ++ (',' :: ('\n' :: (renderObjItems lvl (g :: t2)
                ++ ('\n' :: (jIndent lvl ++ ('}' :: rest))))))))))) with
            | none => none
            | some (kcs, r2) =>
              match skipWs r2 with
              | [] => none
              | d :: r3 =>
                if d = ':' then
                  match parseJVal f r3 with
                  | none => none
                  | some (w, r4) =>
                    match skipWs r4 with
                    | [] => none
                    | e :: r5 =>
                      if e = ',' then
                        (parseObjItems f r5).map
                          (fun p => ((String.mk kcs, w) :: p.1, p.2))
                      else if e = '}' then some ([(String.mk kcs, w)], r5)
                      else none
                else none) = some ((k, v) :: g :: t2, rest)
      rw [parseStrBody_escape]
      show (match skipWs (':' :: (' ' :: (renderJVal (lvl + 1) v
              ++ (',' :: ('\n' :: (renderObjItems lvl (g :: t2)
                ++ ('\n' :: (jIndent lvl ++ ('}' :: rest))))))))) with
            | [] => none
            | d :: r3 =>
              if d = ':' then
                match parseJVal f r3 with
                | none => none
                | some (w, r4) =>
                  match skipWs r4 with
                  | [] => none
                  | e :: r5 =>
                    if e = ',' then
                      (parseObjItems f r5).map
                        (fun p => ((String.mk k.data, w) :: p.1, p.2))
                    else if e = '}' then some ([(String.mk k.data, w)], r5)
                    else none
              else none) = some ((k, v) :: g :: t2, rest)
      rw [skipWs_cons_not (by decide)]
      have hv : parseJVal f (' ' :: (renderJVal (lvl + 1) v
            ++ (',' :: ('\n' :: (renderObjItems lvl (g :: t2)
              ++ ('\n' :: (jIndent lvl ++ ('}' :: rest))))))))
          = some (v, ',' :: ('\n' :: (renderObjItems lvl (g :: t2)
              ++ ('\n' :: (jIndent lvl ++ ('}' :: rest)))))) := by
        have := @parseJVal_ws [' '] (by decide) f
          (renderJVal (lvl + 1) v ++ (',' :: ('\n' :: (renderObjItems lvl (g :: t2)
            ++ ('\n' :: (jIndent lvl ++ ('}' :: rest)))))))
        rw [show (' ' :: (renderJVal (lvl + 1) v
            ++ (',' :: ('\n' :: (renderObjItems lvl (g :: t2)
              ++ ('\n' :: (jIndent lvl ++ ('}' :: rest))))))) : List Char)
            = [' '] ++ (renderJVal (lvl + 1) v
              ++ (',' :: ('\n' :: (renderObjItems lvl (g :: t2)
                ++ ('\n' :: (jIndent lvl ++ ('}' :: rest))))))) from rfl, this]
        exact ihN v hvsz (lvl + 1) _ f hjv rfl
      show (match parseJVal f (' ' :: (renderJVal (lvl + 1) v
              ++ (',' :: ('\n' :: (renderObjItems lvl (g :: t2)
                ++ ('\n' :: (jIndent lvl ++ ('}' :: rest)))))))) with
            | none => none
            | some (w, r4) =>
              match skipWs r4 with
              | [] => none
              | e :: r5 =>
                if e = ',' then
                  (parseObjItems f r5).map
                    (fun p => ((String.mk k.data, w) :: p.1, p.2))
                else if e = '}' then some ([(String.mk k.data, w)], r5)
                else none) = some ((k, v) :: g :: t2, rest)
      rw [hv]
      show (match skipWs (',' :: ('\n' :: (renderObjItems lvl (g :: t2)
              ++ ('\n' :: (jIndent lvl ++ ('}' :: rest)))))) with
            | [] => none
            | e :: r5 =>
              if e = ',' then
                (parseObjItems f r5).map
                  (fun p => ((String.mk k.data, v) :: p.1, p.2))
              else if e = '}' then some ([(String.mk k.data, v)], r5)
              else none) = some ((k, v) :: g :: t2, rest)
      rw [skipWs_cons_not (by decide)]
      show (parseObjItems f ('\n' :: (renderObjItems lvl (g :: t2)
              ++ ('\n' :: (jIndent lvl ++ ('}' :: rest)))))).map
          (fun p => ((String.mk k.data, v) :: p.1, p.2)) = some ((k, v) :: g :: t2, rest)
      have hcall : parseObjItems f ('\n' :: (renderObjItems lvl (g :: t2)
            ++ ('\n' :: (jIndent lvl ++ ('}' :: rest))))) = some (g :: t2, rest) :=
        ihfs (fun z hz => hsz z (List.mem_cons_of_mem _ hz)) (List.cons_ne_nil g t2)
          lvl ['\n'] rest f (by omega) (by decide)
      rw [hcall]
      rfl

theorem roundTrip_of_size : ∀ (N : Nat) (v : JVal), sizeOf v ≤ N → RoundTrip v := by
  intro N
  induction N with
  | zero =>
    intro v hv
    exfalso
    cases v <;> simp_all
  | succ n ihN =>
    intro v hv lvl rest fuel hfuel hrest
    cases v with
    | null =>
      obtain ⟨f, rfl⟩ : ∃ f, fuel = f + 1 := ⟨fuel - 1, by
        have := jNeed_pos JVal.null; omega⟩
      have hr : renderJVal lvl JVal.null ++ rest
          = 'n' :: ('u' :: ('l' :: ('l' :: rest))) := rfl
      rw [hr]
      exact parseJVal_null (skipWs_cons_not (by decide) _) f
    | bool b =>
      obtain ⟨f, rfl⟩ : ∃ f, fuel = f + 1 := ⟨fuel - 1, by
        have := jNeed_pos (JVal.bool b); omega⟩
      cases b
      · have hr : renderJVal lvl (JVal.bool false) ++ rest
            = 'f' :: ('a' :: ('l' :: ('s' :: ('e' :: rest)))) := rfl
        rw [hr]
        exact parseJVal_false (skipWs_cons_not (by decide) _) f
      · have hr : renderJVal lvl (JVal.bool true) ++ rest
            = 't' :: ('r' :: ('u' :: ('e' :: rest))) := rfl
        rw [hr]
        exact parseJVal_true (skipWs_cons_not (by decide) _) f
    | str s =>
      obtain ⟨f, rfl⟩ : ∃ f, fuel = f + 1 := ⟨fuel - 1, by
        have := jNeed_pos (JVal.str s); omega⟩
      have hbody : renderJVal lvl (JVal.str s) = '"' :: escList s.data ++ ['"'] := by
        conv_lhs => unfold renderJVal
      have hr : renderJVal lvl (JVal.str s) ++ rest
          = '"' :: (escList s.data ++ ('"' :: rest)) := by
        rw [hbody]
        simp
      rw [hr, parseJVal_quote (skipWs_cons_not (by decide) _) f, parseStrBody_escape]
      rfl
    | num m =>
      obtain ⟨f, rfl⟩ : ∃ f, fuel = f + 1 := ⟨fuel - 1, by
        have := jNeed_pos (JVal.num m); omega⟩
      show parseJVal (f + 1) (renderInt m ++ rest) = some (JVal.num m, rest)
      rw [renderInt]
      by_cases hneg : m < 0
      · rw [if_pos hneg]
        have hr : ('-' :: renderNat m.natAbs) ++ rest
            = '-' :: (renderNat m.natAbs ++ rest) := rfl
        rw [hr, parseJVal_minus (skipWs_cons_not (by decide) _) f,
          parseNatNum_renderNat m.natAbs rest hrest]
        have hm : -((m.natAbs : Int)) = m := by omega
        rw [show (Option.map (fun p => (JVal.num (-(p.1 : Int)), p.2))
            (some (m.natAbs, rest))) = some (JVal.num (-(m.natAbs : Int)), rest)
            from rfl, hm]
      · rw [if_neg hneg]
        cases hrn : renderNat m.natAbs with
        | nil => exact absurd hrn (renderNat_ne_nil _)
        | cons c t =>
          have hd : c.isDigit = true :=
            renderNat_all_digit _ c (hrn ▸ List.mem_cons_self c t)
          have hsk : skipWs (c :: (t ++ rest)) = c :: (t ++ rest) :=
            skipWs_cons_not (isDigit_facts hd).1 _
          rw [List.cons_append, parseJVal_digit hsk hd f]
          have hshape : (c :: (t ++ rest) : List Char) = renderNat m.natAbs ++ rest := by
            rw [hrn]
            rfl
          rw [hshape, parseNatNum_renderNat m.natAbs rest hrest]
          have hm : ((m.natAbs : Int)) = m := by omega
          rw [show (Option.map (fun p => (JVal.num ((p.1 : Int)), p.2))
              (some (m.natAbs, rest))) = some (JVal.num ((m.natAbs : Int)), rest)
              from rfl, hm]
    | arr xs =>
      cases xs with
      | nil =>
        obtain ⟨f, rfl⟩ : ∃ f, fuel = f + 1 := ⟨fuel - 1, by
          have := jNeed_pos (JVal.arr []); omega⟩
        have hr : renderJVal lvl (JVal.arr []) ++ rest = '[' :: (']' :: rest) := rfl
        rw [hr, parseJVal_lbracket (skipWs_cons_not (by decide) _) f,
          skipWs_cons_not (by decide) rest]
        rfl
      | cons x t =>
        have hfa : jNeedArr (x :: t) ≤ fuel - 1 := by
          have he : jNeed (JVal.arr (x :: t)) = 1 + jNeedArr (x :: t) := rfl
          omega
        obtain ⟨f, rfl⟩ : ∃ f, fuel = f + 1 := ⟨fuel - 1, by
          have := jNeed_pos (JVal.arr (x :: t)); omega⟩
        have hbody : renderJVal lvl (JVal.arr (x :: t))
            = '[' :: '\n' :: renderArrItems lvl (x :: t)
              ++ '\n' :: jIndent lvl ++ [']'] := by
          conv_lhs => unfold renderJVal
        have hr : renderJVal lvl (JVal.arr (x :: t)) ++ rest
            = '[' :: ('\n' :: (renderArrItems lvl (x :: t)
              ++ ('\n' :: (jIndent lvl ++ (']' :: rest))))) := by
          rw [hbody]
          simp
        rw [hr, parseJVal_lbracket (skipWs_cons_not (by decide) _) f]
        obtain ⟨c0, t0, hxr, hc0ws, hc0rb, -⟩ := renderJVal_head (lvl + 1) x
        have hcall : parseArrItems f ('\n' :: (renderArrItems lvl (x :: t)
              ++ ('\n' :: (jIndent lvl ++ (']' :: rest))))) = some (x :: t, rest) :=
          parseArr_render ihN (x :: t)
            (fun z hz => by have := sizeOf_mem_lt_of_mem hz; omega)
            (List.cons_ne_nil x t) lvl ['\n'] rest f hfa (by decide)
        cases t with
        | nil =>
          have harrShape : renderArrItems lvl [x]
                ++ ('\n' :: (jIndent lvl ++ (']' :: rest)))
              = jIndent (lvl + 1) ++ (renderJVal (lvl + 1) x
                ++ ('\n' :: (jIndent lvl ++ (']' :: rest)))) := by
            show (jIndent (lvl + 1) ++ renderJVal (lvl + 1) x)
                ++ ('\n' :: (jIndent lvl ++ (']' :: rest))) = _
            simp
          have hsk : skipWs ('\n' :: (renderArrItems lvl [x]
                ++ ('\n' :: (jIndent lvl ++ (']' :: rest)))))
              = c0 :: (t0 ++ ('\n' :: (jIndent lvl ++ (']' :: rest)))) := by
            rw [show ('\n' :: (renderArrItems lvl [x]
                ++ ('\n' :: (jIndent lvl ++ (']' :: rest)))))
                = ['\n'] ++ (renderArrItems lvl [x]
                  ++ ('\n' :: (jIndent lvl ++ (']' :: rest)))) from rfl]
            rw [skipWs_append_all (by decide), harrShape, skipWs_jIndent, hxr]
            exact skipWs_cons_not hc0ws _
          rw [hsk]
          show (if c0 = ']' then some (JVal.arr [], t0
                  ++ ('\n' :: (jIndent lvl ++ (']' :: rest))))
                else (parseArrItems f ('\n' :: (renderArrItems lvl [x]
                  ++ ('\n' :: (jIndent lvl ++ (']' :: rest)))))).map
                    (fun p => (JVal.arr p.1, p.2))) = some (JVal.arr [x], rest)
          rw [if_neg hc0rb, hcall]
          rfl
        | cons y t2 =>
          have harrShape : renderArrItems lvl (x :: y :: t2)
                ++ ('\n' :: (jIndent lvl ++ (']' :: rest)))
              = jIndent (lvl + 1) ++ (renderJVal (lvl + 1) x
                ++ (',' :: ('\n' :: (renderArrItems lvl (y :: t2)
                  ++ ('\n' :: (jIndent lvl ++ (']' :: rest))))))) := by
            show (jIndent (lvl + 1) ++ renderJVal (lvl + 1) x
                ++ ',' :: '\n' :: renderArrItems lvl (y :: t2))
                ++ ('\n' :: (jIndent lvl ++ (']' :: rest))) = _
            simp
          have hsk : skipWs ('\n' :: (renderArrItems lvl (x :: y :: t2)
                ++ ('\n' :: (jIndent lvl ++ (']' :: rest)))))
              = c0 :: (t0 ++ (',' :: ('\n' :: (renderArrItems lvl (y :: t2)
                  ++ ('\n' :: (jIndent lvl ++ (']' :: rest))))))) := by
            rw [show ('\n' :: (renderArrItems lvl (x :: y :: t2)
                ++ ('\n' :: (jIndent lvl ++ (']' :: rest)))))
                = ['\n'] ++ (renderArrItems lvl (x :: y :: t2)
                  ++ ('\n' :: (jIndent lvl ++ (']' :: rest)))) from rfl]
            rw [skipWs_append_all (by decide), harrShape, skipWs_jIndent, hxr]
            exact skipWs_cons_not hc0ws _
          rw [hsk]
          show (if c0 = ']' then some (JVal.arr [], t0
                  ++ (',' :: ('\n' :: (renderArrItems lvl (y :: t2)
                    ++ ('\n' :: (jIndent lvl ++ (']' :: rest)))))))
                else (parseArrItems f ('\n' :: (renderArrItems lvl (x :: y :: t2)
                  ++ ('\n' :: (jIndent lvl ++ (']' :: rest)))))).map
                    (fun p => (JVal.arr p.1, p.2)))
              = some (JVal.arr (x :: y :: t2), rest)
          rw [if_neg hc0rb, hcall]
          rfl
    | obj fs =>
      cases fs with
      | nil =>
        obtain ⟨f, rfl⟩ : ∃ f, fuel = f + 1 := ⟨fuel - 1, by
          have := jNeed_pos (JVal.obj []); omega⟩
        have hr : renderJVal lvl (JVal.obj []) ++ rest = '{' :: ('}' :: rest) := rfl
        rw [hr, parseJVal_lbrace (skipWs_cons_not (by decide) _) f,
          skipWs_cons_not (by decide) rest]
        rfl
      | cons g t =>
        have hfo : jNeedObj (g :: t) ≤ fuel - 1 := by
          have he : jNeed (JVal.obj (g :: t)) = 1 + jNeedObj (g :: t) := rfl
          omega
        obtain ⟨f, rfl⟩ : ∃ f, fuel = f + 1 := ⟨fuel - 1, by
          have := jNeed_pos (JVal.obj (g :: t)); omega⟩
        obtain ⟨k, v⟩ := g
        have hbody : renderJVal lvl (JVal.obj ((k, v) :: t))
            = '{' :: '\n' :: renderObjItems lvl ((k, v) :: t)
              ++ '\n' :: jIndent lvl ++ ['}'] := by
          conv_lhs => unfold renderJVal
        have hr : renderJVal lvl (JVal.obj ((k, v) :: t)) ++ rest
            = '{' :: ('\n' :: (renderObjItems lvl ((k, v) :: t)
              ++ ('\n' :: (jIndent lvl ++ ('}' :: rest))))) := by
          rw [hbody]
          simp
        rw [hr, parseJVal_lbrace (skipWs_cons_not (by decide) _) f]
        have hcall : parseObjItems f ('\n' :: (renderObjItems lvl ((k, v) :: t)
              ++ ('\n' :: (jIndent lvl ++ ('}' :: rest))))) = some ((k, v) :: t, rest) :=
          parseObj_render ihN ((k, v) :: t)
            (fun z hz => by
              obtain ⟨kz, vz⟩ := z
              have hlt := sizeOf_snd_lt_of_mem hz
              show sizeOf vz ≤ n
              omega)
            (List.cons_ne_nil (k, v) t) lvl ['\n'] rest f hfo (by decide)
        cases t with
        | nil =>
          have hobjShape : renderObjItems lvl [(k, v)]
                ++ ('\n' :: (jIndent lvl ++ ('}' :: rest)))
              = jIndent (lvl + 1) ++ ('"' :: (escList k.data ++ ('"' :: (':' :: (' '
                :: (renderJVal (lvl + 1) v
                  ++ ('\n' :: (jIndent lvl ++ ('}' :: rest))))))))) := by
            show (jIndent (lvl + 1) ++ '"' :: escList k.data
                ++ '"' :: ':' :: ' ' :: renderJVal (lvl + 1) v)
                ++ ('\n' :: (jIndent lvl ++ ('}' :: rest))) = _
            simp
          have hsk : skipWs ('\n' :: (renderObjItems lvl [(k, v)]
                ++ ('\n' :: (jIndent lvl ++ ('}' :: rest)))))
              = '"' :: (escList k.data ++ ('"' :: (':' :: (' '
                :: (renderJVal (lvl + 1) v
                  ++ ('\n' :: (jIndent lvl ++ ('}' :: rest)))))))) := by
            rw [show ('\n' :: (renderObjItems lvl [(k, v)]
                ++ ('\n' :: (jIndent lvl ++ ('}' :: rest)))))
                = ['\n'] ++ (renderObjItems lvl [(k, v)]
                  ++ ('\n' :: (jIndent lvl ++ ('}' :: rest)))) from rfl]
            rw [skipWs_append_all (by decide), hobjShape, skipWs_jIndent]
            exact skipWs_cons_not (by decide) _
          rw [hsk]
          show (if ('"' : Char) = '}' then
                  some (JVal.obj [], escList k.data ++ ('"' :: (':' :: (' '
                    :: (renderJVal (lvl + 1) v
                      ++ ('\n' :: (jIndent lvl ++ ('}' :: rest))))))))
                else (parseObjItems f ('\n' :: (renderObjItems lvl [(k, v)]
                  ++ ('\n' :: (jIndent lvl ++ ('}' :: rest)))))).map
                    (fun p => (JVal.obj p.1, p.2))) = some (JVal.obj [(k, v)], rest)
          rw [if_neg (by decide : ¬('"' : Char) = '}'), hcall]
          rfl
        | cons g2 t2 =>
          have hobjShape : renderObjItems lvl ((k, v) :: g2 :: t2)
                ++ ('\n' :: (jIndent lvl ++ ('}' :: rest)))
              = jIndent (lvl + 1) ++ ('"' :: (escList k.data ++ ('"' :: (':' :: (' '
                :: (renderJVal (lvl + 1) v
                  ++ (',' :: ('\n' :: (renderObjItems lvl (g2 :: t2)
                    ++ ('\n' :: (jIndent lvl ++ ('}' :: rest))))))))))))  := by
            show (jIndent (lvl + 1) ++ '"' :: escList k.data
                ++ '"' :: ':' :: ' ' :: renderJVal (lvl + 1) v
                ++ ',' :: '\n' :: renderObjItems lvl (g2 :: t2))
                ++ ('\n' :: (jIndent lvl ++ ('}' :: rest))) = _
            simp
          have hsk : skipWs ('\n' :: (renderObjItems lvl ((k, v) :: g2 :: t2)
                ++ ('\n' :: (jIndent lvl ++ ('}' :: rest)))))
              = '"' :: (escList k.data ++ ('"' :: (':' :: (' '
                :: (renderJVal (lvl + 1) v
                  ++ (',' :: ('\n' :: (renderObjItems lvl (g2 :: t2)
                    ++ ('\n' :: (jIndent lvl ++ ('}' :: rest))))))))))) := by
            rw [show ('\n' :: (renderObjItems lvl ((k, v) :: g2 :: t2)
                ++ ('\n' :: (jIndent lvl ++ ('}' :: rest)))))
                = ['\n'] ++ (renderObjItems lvl ((k, v) :: g2 :: t2)
                  ++ ('\n' :: (jIndent lvl ++ ('}' :: rest)))) from rfl]
            rw [skipWs_append_all (by decide), hobjShape, skipWs_jIndent]
            exact skipWs_cons_not (by decide) _
          rw [hsk]
          show (if ('"' : Char) = '}' then
                  some (JVal.obj [], escList k.data ++ ('"' :: (':' :: (' '
                    :: (renderJVal (lvl + 1) v
                      ++ (',' :: ('\n' :: (renderObjItems lvl (g2 :: t2)
                        ++ ('\n' :: (jIndent lvl ++ ('}' :: rest)))))))))))
                else (parseObjItems f ('\n' :: (renderObjItems lvl ((k, v) :: g2 :: t2)
                  ++ ('\n' :: (jIndent lvl ++ ('}' :: rest)))))).map
                    (fun p => (JVal.obj p.1, p.2)))
              = some (JVal.obj ((k, v) :: g2 :: t2), rest)
          rw [if_neg (by decide : ¬('"' : Char) = '}'), hcall]
          rfl

/-! ### Round-trip, layer 4: enough fuel from the rendered length -/

theorem length_renderNat_pos (n : Nat) : 1 ≤ (renderNat n).length := by
  cases h : renderNat n with
  | nil => exact absurd h (renderNat_ne_nil n)
  | cons c t => simp

theorem jNeedArr_le {n : Nat}
    (ihN : ∀ v : JVal, sizeOf v ≤ n → ∀ lvl, jNeed v ≤ (renderJVal lvl v).length) :
    ∀ xs : List JVal, (∀ x ∈ xs, sizeOf x ≤ n) →
      ∀ lvl, jNeedArr xs ≤ (renderArrItems lvl xs).length + 2 := by
  intro xs
  induction xs with
  | nil =>
    intro _ lvl
    show 1 ≤ ([] : List Char).length + 2
    simp
  | cons x t ih =>
    intro hsz lvl
    rw [jNeedArr_cons]
    have hx : jNeed x ≤ (renderJVal (lvl + 1) x).length :=
      ihN x (hsz x (List.mem_cons_self x t)) (lvl + 1)
    cases t with
    | nil =>
      show 1 + jNeed x + 1
          ≤ (jIndent (lvl + 1) ++ renderJVal (lvl + 1) x).length + 2
      simp only [List.length_append]
      omega
    | cons y t2 =>
      have ht : jNeedArr (y :: t2) ≤ (renderArrItems lvl (y :: t2)).length + 2 :=
        ih (fun z hz => hsz z (List.mem_cons_of_mem x hz)) lvl
      show 1 + jNeed x + jNeedArr (y :: t2)
          ≤ (jIndent (lvl + 1) ++ renderJVal (lvl + 1) x
              ++ ',' :: '\n' :: renderArrItems lvl (y :: t2)).length + 2
      simp only [List.length_append, List.length_cons]
      omega

theorem jNeedObj_le {n : Nat}
    (ihN : ∀ v : JVal, sizeOf v ≤ n → ∀ lvl, jNeed v ≤ (renderJVal lvl v).length) :
    ∀ fs : List (String × JVal), (∀ f ∈ fs, sizeOf f.2 ≤ n) →
      ∀ lvl, jNeedObj fs ≤ (renderObjItems lvl fs).length + 2 := by
  intro fs
  induction fs with
  | nil =>
    intro _ lvl
    show 1 ≤ ([] : List Char).length + 2
    simp
  | cons g t ih =>
    obtain ⟨k, v⟩ := g
    intro hsz lvl
    rw [jNeedObj_cons]
    have hv : jNeed v ≤ (renderJVal (lvl + 1) v).length := by
      have hm : sizeOf (k, v).2 ≤ n := hsz (k, v) (List.mem_cons_self _ t)
      exact ihN v hm (lvl + 1)
    cases t with
    | nil =>
      show 1 + jNeed v + 1
          ≤ (jIndent (lvl + 1) ++ '"' :: escList k.data
              ++ '"' :: ':' :: ' ' :: renderJVal (lvl + 1) v).length + 2
      simp only [List.length_append, List.length_cons]
      omega
    | cons g2 t2 =>
      have ht : jNeedObj (g2 :: t2) ≤ (renderObjItems lvl (g2 :: t2)).length + 2 :=
        ih (fun z hz => hsz z (List.mem_cons_of_mem _ hz)) lvl
      show 1 + jNeed v + jNeedObj (g2 :: t2)
          ≤ (jIndent (lvl + 1) ++ '"' :: escList k.data
              ++ '"' :: ':' :: ' ' :: renderJVal (lvl + 1) v
              ++ ',' :: '\n' :: renderObjItems lvl (g2 :: t2)).length + 2
      simp only [List.length_append, List.length_cons]
      omega

theorem jNeed_le_render_of_size : ∀ (N : Nat) (v : JVal), sizeOf v ≤ N →
    ∀ lvl, jNeed v ≤ (renderJVal lvl v).length := by
  intro N
  induction N with
  | zero =>
    intro v hv
    exfalso
    cases v <;> simp_all
  | succ n ihN =>
    intro v hv lvl
    cases v with
    | null =>
      show jNeed JVal.null ≤ (['n', 'u', 'l', 'l'] : List Char).length
      simp [jNeed]
    | bool b =>
      cases b
      · show jNeed (JVal.bool false) ≤ (['f', 'a', 'l', 's', 'e'] : List Char).length
        simp [jNeed]
      · show jNeed (JVal.bool true) ≤ (['t', 'r', 'u', 'e'] : List Char).length
        simp [jNeed]
    | num m =>
      show jNeed (JVal.num m) ≤ (renderInt m).length
      rw [show jNeed (JVal.num m) = 1 from rfl, renderInt]
      by_cases hneg : m < 0
      · rw [if_pos hneg, List.length_cons]
        omega
      · rw [if_neg hneg]
        exact length_renderNat_pos m.natAbs
    | str s =>
      show jNeed (JVal.str s) ≤ ('"' :: escList s.data ++ ['"']).length
      rw [show jNeed (JVal.str s) = 1 from rfl]
      simp
    | arr xs =>
      cases xs with
      | nil =>
        show jNeed (JVal.arr []) ≤ (['[', ']'] : List Char).length
        simp [jNeed]
      | cons x t =>
        have hbody : renderJVal lvl (JVal.arr (x :: t))
            = '[' :: '\n' :: renderArrItems lvl (x :: t)
              ++ '\n' :: jIndent lvl ++ [']'] := by
          conv_lhs => unfold renderJVal
        have harr : jNeedArr (x :: t) ≤ (renderArrItems lvl (x :: t)).length + 2 :=
          jNeedArr_le ihN (x :: t)
            (fun z hz => by have := sizeOf_mem_lt_of_mem hz; omega) lvl
        rw [hbody, show jNeed (JVal.arr (x :: t)) = 1 + jNeedArr (x :: t) from rfl]
        simp only [List.length_cons, List.length_append]
        omega
    | obj fs =>
      cases fs with
      | nil =>
        show jNeed (JVal.obj []) ≤ (['{', '}'] : List Char).length
        simp [jNeed]
      | cons g t =>
        have hbody : renderJVal lvl (JVal.obj (g :: t))
            = '{' :: '\n' :: renderObjItems lvl (g :: t)
              ++ '\n' :: jIndent lvl ++ ['}'] := by
          conv_lhs => unfold renderJVal
        have hobj : jNeedObj (g :: t) ≤ (renderObjItems lvl (g :: t)).length + 2 :=
          jNeedObj_le ihN (g :: t)
            (fun z hz => by
              obtain ⟨kz, vz⟩ := z
              have := sizeOf_snd_lt_of_mem hz
              show sizeOf vz ≤ n
              omega) lvl
        rw [hbody, show jNeed (JVal.obj (g :: t)) = 1 + jNeedObj (g :: t) from rfl]
        simp only [List.length_cons, List.length_append]
        omega

theorem jNeed_le_render (v : JVal) (lvl : Nat) :
    jNeed v ≤ (renderJVal lvl v).length :=
  jNeed_le_render_of_size (sizeOf v) v le_rfl lvl

/-- C9.  JSON round-trip: `export_to_json` dumps the projected item list
verbatim — it renders exactly the value `JVal.arr (data.map JVal.obj)` built
from the original dotted keys, with no display-name renaming and no column
reordering — and `json_loads` applied to the rendered text returns exactly
that value again, for every well-formed item list (distinct keys throughout,
as Python dicts guarantee, the region where the parser model agrees with
`json.loads`). -/
theorem json_roundtrip (data : List Item) (h : wfItems data = true) :
    export_to_json data = renderJVal 0 (JVal.arr (data.map JVal.obj)) ∧
    json_loads (export_to_json data) = some (JVal.arr (data.map JVal.obj)) := by
  refine ⟨rfl, ?_⟩
  have hp : parseJVal ((export_to_json data).length + 1) (export_to_json data ++ [])
      = some (JVal.arr (data.map JVal.obj), []) :=
    roundTrip_of_size (sizeOf (JVal.arr (data.map JVal.obj))) _ le_rfl 0 []
      ((export_to_json data).length + 1)
      (by
        have hb := jNeed_le_render (JVal.arr (data.map JVal.obj)) 0
        show jNeed (JVal.arr (data.map JVal.obj))
            ≤ (renderJVal 0 (JVal.arr (data.map JVal.obj))).length + 1
        omega)
      rfl
  rw [List.append_nil] at hp
  conv_lhs => unfold json_loads
  rw [hp]
  rfl

/-- Concrete run of C9 at a one-item list, its well-formedness discharged by
evaluation. -/
theorem json_roundtrip_witness :
    wfItems [[("name", JVal.str "m")]] = true ∧
    (export_to_json [[("name", JVal.str "m")]]
        = renderJVal 0 (JVal.arr ([[("name", JVal.str "m")]].map JVal.obj)) ∧
      json_loads (export_to_json [[("name", JVal.str "m")]])
        = some (JVal.arr ([[("name", JVal.str "m")]].map JVal.obj))) :=
  ⟨rfl, json_roundtrip [[("name", JVal.str "m")]] rfl⟩

/-! ## Per-record document filename (`gui/program.py` lines 370-373)

```python
filename = model_name.lower().replace(" ", "-").replace("/", "-").replace("\\", "-")
filename = ''.join(c for c in filename if c.isalnum() or c in ['-', '_'])
filename = f"{filename}.md"
```

`str.replace` with a one-character pattern is a character-wise map.
`Char.toLower`/`Char.isAlphanum` are by definition the ASCII maps (`A-Z` to
`a-z`; membership in `[A-Za-z0-9]`), and Python's `str.lower()`/`str.isalnum()`
coincide with them exactly on the ASCII range but are Unicode-aware beyond it
(Python keeps a letter such as `'é'`, deriving `"café.md"` from `"Café"`,
where the ASCII maps would strip it).  The embedding below is therefore
faithful to `program.py` lines 370-373 precisely on ASCII names, and the
general clause of the amended claim carries that guard; the concrete
counterexample name is pure ASCII. -/

/-- The region where the embedding is exact: every character of the name is
ASCII. -/
def asciiOnly (name : String) : Bool :=
  name.data.all (fun c => c.toNat ≤ 127)

def derive_filename (name : String) : String :=
  let s1 := name.data.map Char.toLower
  let s2 := s1.map (fun c => if c = ' ' then '-' else c)
  let s3 := s2.map (fun c => if c = '/' then '-' else c)
  let s4 := s3.map (fun c => if c = '\\' then '-' else c)
  String.mk (s4.filter (fun c => c.isAlphanum || c = '-' || c = '_')) ++ ".md"

/-- C5 counterexample: the name `"GPT 4 / Test"` derives
`"gpt-4---test.md"` — each of the space, the slash and the second space
becomes its own dash and consecutive dashes are not collapsed — so the
claimed result `"gpt-4-test.md"` is wrong. -/
theorem filename_derivation_counterexample :
    derive_filename "GPT 4 / Test" = "gpt-4---test.md" ∧
    derive_filename "GPT 4 / Test" ≠ "gpt-4-test.md" := by
  constructor
  · rfl
  · decide

/-- C5 amended.  For `"GPT 4 / Test"` the derived filename is
`"gpt-4---test.md"` (consecutive replacement dashes are kept); and for every
ASCII name — the region where `Char.toLower`/`Char.isAlphanum` coincide with
Python's Unicode-aware `str.lower()`/`str.isalnum()`, so where the embedding
is faithful — the name is lowercased, each space and path separator becomes
one `'-'`, every character outside `[A-Za-z0-9_-]` is stripped, and `".md"`
is appended. -/
theorem filename_derivation_amended :
    derive_filename "GPT 4 / Test" = "gpt-4---test.md" ∧
    ∀ name : String, asciiOnly name = true →
      derive_filename name =
        String.mk (((name.data.map Char.toLower).map
            (fun c => if c = ' ' ∨ c = '/' ∨ c = '\\' then '-' else c)).filter
          (fun c => c.isAlphanum || c = '-' || c = '_')) ++ ".md" := by
  refine ⟨rfl, fun name _ => ?_⟩
  have hchain : ∀ c : Char,
      (fun c => if c = '\\' then '-' else c)
        ((fun c => if c = '/' then '-' else c)
          ((fun c => if c = ' ' then '-' else c) c))
      = (if c = ' ' ∨ c = '/' ∨ c = '\\' then '-' else c) := by
    intro c
    by_cases h1 : c = ' '
    · subst h1; rfl
    · by_cases h2 : c = '/'
      · subst h2; rfl
      · by_cases h3 : c = '\\'
        · subst h3; rfl
        · simp [h1, h2, h3]
  simp only [derive_filename, List.map_map]
  congr 2
  exact congrArg (List.filter _)
    (List.map_congr_left (fun c _ => hchain (Char.toLower c)))

/-- Concrete run of the amended C5 rule at the pure-ASCII name
`"GPT 4 / Test"`, its ASCII guard discharged by evaluation. -/
theorem filename_derivation_amended_witness :
    asciiOnly "GPT 4 / Test" = true ∧
    derive_filename "GPT 4 / Test" =
      String.mk ((("GPT 4 / Test".data.map Char.toLower).map
          (fun c => if c = ' ' ∨ c = '/' ∨ c = '\\' then '-' else c)).filter
        (fun c => c.isAlphanum || c = '-' || c = '_')) ++ ".md" :=
  ⟨by decide, filename_derivation_amended.2 "GPT 4 / Test" (by decide)⟩

/-! ## Progress stream (`gui/program.py` lines 315, 324, 332, 337, 357, 360,
383, 428, 443; `update_status` lines 453-456)

The percentages pushed through `update_status` during a successful
single-format export run, in emission order:

```python
self.update_status("Reading input file...", 5)
# optional filtering phase
self.update_status("Filtering personal information...", 10)
self.update_status(f"Filtering: ...", 10 + (i+1) * 20 / total_items)   # per input record
# extraction phase (data is now the filtered list)
self.update_status("Extracting selected fields...", 30)
self.update_status(f"Extracting: ...", 30 + (i+1) * 40 / total_items)  # per surviving record
# per-record documents
self.update_status("Creating individual model markdown files...", 65)
self.update_status(f"Creating individual files: ...", 65 + (i+1) * 5 / len(extracted_data))
# single chosen format
self.update_status(f"Exporting to ...", 70)
self.update_status(f"Export completed successfully: ...", 100)
```

Percentages are modelled as exact rationals; every value in the
counterexample below is integer-valued, where Python float arithmetic is
exact as well. -/

def progressPercentages (filterOn : Bool) (data : List JVal) : List ℚ :=
  let afterFilter := if filterOn then filterPersonalData data else data
  [5]
    ++ (if filterOn then
          10 :: (List.range data.length).map
            (fun i => 10 + ((i : ℚ) + 1) * 20 / data.length)
        else [])
    ++ 30 :: (List.range afterFilter.length).map
          (fun i => 30 + ((i : ℚ) + 1) * 40 / afterFilter.length)
    ++ 65 :: (List.range afterFilter.length).map
          (fun i => 65 + ((i : ℚ) + 1) * 5 / afterFilter.length)
    ++ [70, 100]

/-- C6.  The progress stream is NOT monotonically non-decreasing: already on
a plain one-record run without filtering, the extraction phase ends at 70 and
the next update (start of the per-record-document phase) drops back to 65.
The spec's monotonicity requirement is the evident intent (a progress bar
that never moves backwards), so this is a defect of the code's phase
percentages, not of the claim. -/
theorem progress_not_monotone :
    progressPercentages false [JVal.num 1] = [5, 30, 70, 65, 70, 70, 100] ∧
    ¬ List.Chain' (· ≤ ·) (progressPercentages false [JVal.num 1]) := by
  have h : progressPercentages false [JVal.num 1] = [5, 30, 70, 65, 70, 70, 100] := by
    norm_num [progressPercentages, List.range_succ]
  refine ⟨h, ?_⟩
  rw [h]
  intro hc
  simp only [List.chain'_cons, List.chain'_singleton, and_true] at hc
  have h7065 : (70 : ℚ) ≤ 65 := hc.2.2.1
  norm_num at h7065
